import Mathlib

/-
Verification of the Renko / Point-and-Figure aggregation core of
`mplfinance/_utils.py` (functions `_calculate_atr`, `combine_adjacent`,
`coalesce_volume_dates`, `_construct_renko_collections`,
`_construct_pointnfig_collections`).

Prices, volumes and dates are modelled as exact rationals; Python `int()`
truncation toward zero becomes `pyint`; Python list indexing (including
negative-index wraparound) becomes `pyGet` / `pySet`; a Python
`raise ValueError` becomes an `Option` returning `none`.
-/

namespace Mpf

/-- Python `int()` applied to a rational: truncation toward zero
(`q.num.tdiv q.den` on a normalized rational). -/
def pyint (q : ℚ) : ℤ := q.num.tdiv (q.den : ℤ)

/-- Python list read `l[i]` with negative-index wraparound; out-of-range
reads (which would raise IndexError) default to 0. -/
def pyGet (l : List ℚ) (i : ℤ) : ℚ :=
  let j : ℤ := if i < 0 then (l.length : ℤ) + i else i
  if j < 0 then 0 else l.getD j.toNat 0

/-- Python list write `l[i] = v` with negative-index wraparound; out-of-range
writes leave the list unchanged. -/
def pySet (l : List ℚ) (i : ℤ) (v : ℚ) : List ℚ :=
  let j : ℤ := if i < 0 then (l.length : ℤ) + i else i
  if j < 0 then l else l.set j.toNat v

/-- True range of one period: `max(abs(high-low), abs(high-close_prev), abs(low-close_prev))`. -/
def trueRange (h l cp : ℚ) : ℚ := max |h - l| (max |h - cp| |l - cp|)

/-- `_calculate_atr(atr_length, highs, lows, closes)`: rejects `atr_length < 1`
and `atr_length >= len(closes)`, then returns the mean true range over the
trailing `atr_length` indices of `highs`. -/
def calculateATR (atr_length : ℤ) (highs lows closes : List ℚ) : Option ℚ :=
  if atr_length < 1 then none
  else if (closes.length : ℤ) ≤ atr_length then none
  else
    let idxs := (List.range highs.length).drop (highs.length - atr_length.toNat)
    let atr := idxs.foldl
      (fun acc (i : ℕ) => acc + trueRange (pyGet highs (i : ℤ)) (pyGet lows (i : ℤ))
        (pyGet closes ((i : ℤ) - 1))) 0
    some (atr / (atr_length : ℚ))

/-- Python `max(closes)` (0 on an empty list, which would raise). -/
def listMax (l : List ℚ) : ℚ := l.foldl max (l.headD 0)

/-- Python `min(closes)` (0 on an empty list, which would raise). -/
def listMin (l : List ℚ) : ℚ := l.foldl min (l.headD 0)

/-- The explicit brick/box size validation, which appears verbatim in both
`_construct_renko_collections` and `_construct_pointnfig_collections`:
raise when `size > (max(closes)-min(closes))/2`, else raise when
`size < 0.01 * _calculate_atr(len(closes)-1, ...)`, else accept. -/
def sizeBoundsCheck (size : ℚ) (highs lows closes : List ℚ) : Option ℚ :=
  match calculateATR ((closes.length : ℤ) - 1) highs lows closes with
  | none => none
  | some atr =>
    let upper_limit := (listMax closes - listMin closes) / 2
    let lower_limit := (1 / 100) * atr
    if upper_limit < size then none
    else if size < lower_limit then none
    else some size

/-! ## Renko delta extraction (first loop of `_construct_renko_collections`) -/

structure RenkoS1 where
  cdiff : List ℤ
  prev_close_brick : ℚ
  volume_cache : ℚ
  new_dates : List ℚ
  new_volumes : List ℚ
deriving Repr, DecidableEq

/-- One iteration of the Renko delta-extraction loop (body of
`for i in range(len(closes)-1)`), with volumes present. -/
def renkoStep1 (brick_size : ℚ) (closes volumes dates : List ℚ) (s : RenkoS1) (i : ℕ) : RenkoS1 :=
  let brick_diff := pyint ((pyGet closes ((i : ℤ) + 1) - s.prev_close_brick) / brick_size)
  if brick_diff = 0 then
    { s with volume_cache := s.volume_cache + pyGet volumes i }
  else
    { cdiff := s.cdiff ++ List.replicate brick_diff.natAbs brick_diff.sign
      prev_close_brick := s.prev_close_brick + (brick_diff : ℚ) * brick_size
      volume_cache := 0
      new_dates := s.new_dates ++ List.replicate brick_diff.natAbs (pyGet dates i)
      new_volumes := s.new_volumes ++ List.replicate brick_diff.natAbs (pyGet volumes i + s.volume_cache) }

def renkoInit (closes : List ℚ) : RenkoS1 :=
  { cdiff := [], prev_close_brick := pyGet closes 0, volume_cache := 0
    new_dates := [], new_volumes := [] }

/-- The Renko delta-extraction loop stopped after `m` iterations. -/
def renkoPass1Upto (brick_size : ℚ) (closes volumes dates : List ℚ) (m : ℕ) : RenkoS1 :=
  ((List.range (closes.length - 1)).take m).foldl
    (renkoStep1 brick_size closes volumes dates) (renkoInit closes)

/-- The whole Renko delta-extraction loop. -/
def renkoPass1 (brick_size : ℚ) (closes volumes dates : List ℚ) : RenkoS1 :=
  (List.range (closes.length - 1)).foldl
    (renkoStep1 brick_size closes volumes dates) (renkoInit closes)

/-! ## Renko reversal-penalty pass (second loop of `_construct_renko_collections`) -/

structure RenkoS2 where
  bricks : List ℤ
  new_dates : List ℚ
  new_volumes : List ℚ
  last_diff_sign : ℤ
  dates_volumes_index : ℕ
deriving Repr, DecidableEq

/-- One iteration of the reversal-penalty loop (`for diff in cdiff`), with
volumes present: on a sign change against a nonzero `last_diff_sign` the
unit is dropped, its date removed, and its volume added to the previous
entry when it is the last entry, otherwise to the following entry;
otherwise the unit is emitted as a brick. -/
def renkoStep2 (s : RenkoS2) (diff : ℤ) : RenkoS2 :=
  let curr_diff_sign := diff.sign
  if s.last_diff_sign ≠ 0 ∧ curr_diff_sign ≠ s.last_diff_sign then
    let idx := s.dates_volumes_index
    let folded :=
      if (idx : ℤ) = (s.new_volumes.length : ℤ) - 1 then
        pySet s.new_volumes ((idx : ℤ) - 1)
          (pyGet s.new_volumes ((idx : ℤ) - 1) + pyGet s.new_volumes (idx : ℤ))
      else
        pySet s.new_volumes ((idx : ℤ) + 1)
          (pyGet s.new_volumes ((idx : ℤ) + 1) + pyGet s.new_volumes (idx : ℤ))
    { s with
      last_diff_sign := curr_diff_sign
      new_dates := s.new_dates.eraseIdx idx
      new_volumes := folded.eraseIdx idx }
  else
    { s with
      last_diff_sign := curr_diff_sign
      bricks := s.bricks ++ List.replicate diff.natAbs (if 0 < diff then 1 else -1)
      dates_volumes_index := s.dates_volumes_index + 1 }

/-- The whole reversal-penalty loop, started on the delta-extraction output. -/
def renkoPass2 (cdiff : List ℤ) (nd nv : List ℚ) : RenkoS2 :=
  cdiff.foldl renkoStep2
    { bricks := [], new_dates := nd, new_volumes := nv
      last_diff_sign := 0, dates_volumes_index := 0 }

/-- Cumulative brick price levels: `curr_price += brick_size * number` per brick. -/
def brickValuesGo (brick_size : ℚ) : ℚ → List ℤ → List ℚ
  | _, [] => []
  | curr, n :: rest =>
    (curr + brick_size * (n : ℚ)) :: brickValuesGo brick_size (curr + brick_size * (n : ℚ)) rest

structure RenkoOut where
  bricks : List ℤ
  dates : List ℚ
  volumes : List ℚ
  values : List ℚ
  size : ℚ
deriving Repr, DecidableEq

/-- `_construct_renko_collections` with an explicit numeric `brick_size` and
volumes present: validate the size, run both passes, and return the
calculated values (plus the internal brick list). -/
def renkoAggregate (brick_size : ℚ) (dates highs lows closes volumes : List ℚ) :
    Option RenkoOut :=
  (sizeBoundsCheck brick_size highs lows closes).bind fun bs =>
    let s1 := renkoPass1 bs closes volumes dates
    let s2 := renkoPass2 s1.cdiff s1.new_dates s1.new_volumes
    some { bricks := s2.bricks, dates := s2.new_dates, volumes := s2.new_volumes
           values := brickValuesGo bs (pyGet closes 0) s2.bricks, size := bs }

/-- Just the brick sequence produced by the two Renko passes (the brick list
does not depend on the bounds check). -/
def renkoBricks (brick_size : ℚ) (closes volumes dates : List ℚ) : List ℤ :=
  let s1 := renkoPass1 brick_size closes volumes dates
  (renkoPass2 s1.cdiff s1.new_dates s1.new_volumes).bricks

/-! ## Point-and-Figure helpers (`combine_adjacent`, `coalesce_volume_dates`) -/

/-- `combine_adjacent(arr)`: sum like-signed adjacent runs of `arr`; also
return, for each run, the index in `arr` of its first element. -/
def combineAdjacentGo (l : List ℤ) (curr_i : ℕ) : List ℤ × List ℕ :=
  match l with
  | [] => ([], [])
  | a :: rest =>
    let grp := rest.takeWhile (fun x => x.sign == a.sign)
    let post := rest.dropWhile (fun x => x.sign == a.sign)
    let res := combineAdjacentGo post (curr_i + 1 + grp.length)
    ((a + grp.sum) :: res.1, curr_i :: res.2)
termination_by l.length
decreasing_by
  simp only [List.length_cons]
  exact Nat.lt_succ_of_le (List.Sublist.length_le (List.dropWhile_sublist _))

def combineAdjacent (arr : List ℤ) : List ℤ × List ℕ := combineAdjacentGo arr 0

/-- `coalesce_volume_dates(in_volumes, in_dates, indexes)`: keep the date at
each index, and sum the volumes of the half-open slice up to the next index
(up to the end for the final index). -/
def coalesceVolumeDates (in_volumes in_dates : List ℚ) : List ℕ → List ℚ × List ℚ
  | [] => ([], [])
  | j :: rest =>
    let to_sum_to := match rest with | [] => in_volumes.length | k :: _ => k
    let res := coalesceVolumeDates in_volumes in_dates rest
    (((in_volumes.take to_sum_to).drop j).sum :: res.1, pyGet in_dates (j : ℤ) :: res.2)

/-- Python `l[len(l)-1] = v`; unchanged when `l` is empty (where Python's
`l[-1] = v` would raise IndexError). -/
def setLast {α : Type} (l : List α) (v : α) : List α := l.set (l.length - 1) v

/-! ## PnF delta extraction (first loop of `_construct_pointnfig_collections`) -/

structure PnfS1 where
  boxes : List ℤ
  prev_close_box : ℚ
  volume_cache : ℚ
  temp_dates : List ℚ
  temp_volumes : List ℚ
deriving DecidableEq

/-- One iteration of the PnF delta-extraction loop: like Renko, but the
signed count is appended once rather than unit-expanded. -/
def pnfStep1 (box_size : ℚ) (closes volumes dates : List ℚ) (s : PnfS1) (i : ℕ) : PnfS1 :=
  let box_diff := pyint ((pyGet closes ((i : ℤ) + 1) - s.prev_close_box) / box_size)
  if box_diff = 0 then
    { s with volume_cache := s.volume_cache + pyGet volumes i }
  else
    { boxes := s.boxes ++ [box_diff]
      prev_close_box := s.prev_close_box + (box_diff : ℚ) * box_size
      volume_cache := 0
      temp_dates := s.temp_dates ++ [pyGet dates i]
      temp_volumes := s.temp_volumes ++ [pyGet volumes i + s.volume_cache] }

def pnfPass1 (box_size : ℚ) (closes volumes dates : List ℚ) : PnfS1 :=
  (List.range (closes.length - 1)).foldl (pnfStep1 box_size closes volumes dates)
    { boxes := [], prev_close_box := pyGet closes 0, volume_cache := 0
      temp_dates := [], temp_volumes := [] }

/-! ## PnF one-box reversal discount pass (`for i in range(1, len(boxes))`) -/

structure PnfS2 where
  adjusted_boxes : List ℤ
  temp_volumes : List ℚ
  temp_dates : List ℚ
  volume_cache : ℚ
deriving DecidableEq

/-- One iteration of the discount/re-combination loop: subtract one unit
toward zero from `boxes[i]`; append on opposite sign, merge into the last
element on equal sign, park the volume in the cache when the adjusted
value is zero. -/
def pnfStep2 (boxes : List ℤ) (new_volumes new_dates : List ℚ) (s : PnfS2) (i : ℕ) : PnfS2 :=
  let b := boxes.getD i 0
  let adjusted_value := b - b.sign
  if adjusted_value ≠ 0 ∧ s.adjusted_boxes.getLastD 0 * adjusted_value < 0 then
    { adjusted_boxes := s.adjusted_boxes ++ [adjusted_value]
      temp_volumes := s.temp_volumes ++ [pyGet new_volumes (i : ℤ) + s.volume_cache]
      temp_dates := s.temp_dates ++ [pyGet new_dates (i : ℤ)]
      volume_cache := 0 }
  else if adjusted_value ≠ 0 ∧ s.adjusted_boxes.getLastD 0 * adjusted_value > 0 then
    { s with
      adjusted_boxes := setLast s.adjusted_boxes (s.adjusted_boxes.getLastD 0 + adjusted_value)
      temp_volumes := setLast s.temp_volumes
        (s.temp_volumes.getLastD 0 + (pyGet new_volumes (i : ℤ) + s.volume_cache))
      volume_cache := 0 }
  else
    { s with volume_cache := s.volume_cache + pyGet new_volumes (i : ℤ) }

def pnfPass2 (boxes : List ℤ) (new_volumes new_dates : List ℚ) : PnfS2 :=
  ((List.range boxes.length).drop 1).foldl (pnfStep2 boxes new_volumes new_dates)
    { adjusted_boxes := [boxes.getD 0 0], temp_volumes := [new_volumes.getD 0 0]
      temp_dates := [new_dates.getD 0 0], volume_cache := 0 }

/-! ## PnF reversal-threshold merge pass (`for i in range(1, len(adjusted_boxes))`) -/

structure PnfS3 where
  boxes : List ℤ
  new_volumes : List ℚ
  new_dates : List ℚ
  rolling_change : ℤ
  volume_cache : ℚ
  biggest_difference : ℤ
deriving DecidableEq

/-- One iteration of the reversal-threshold merge loop: accumulate
`rolling_change` / `volume_cache`, track `biggest_difference`, and flush
(merge on sign agreement with the last column, append otherwise) exactly
when `abs(rolling_change) >= reversal`. -/
def pnfStep3 (reversal : ℤ) (adjusted_boxes : List ℤ) (temp_volumes temp_dates : List ℚ)
    (s : PnfS3) (i : ℕ) : PnfS3 :=
  let rolling := s.rolling_change + adjusted_boxes.getD i 0
  let vcache := s.volume_cache + pyGet temp_volumes (i : ℤ)
  let biggest :=
    if rolling * s.boxes.getLastD 0 > 0 ∧ |rolling| > |s.biggest_difference| then rolling
    else s.biggest_difference
  if |rolling| ≥ reversal then
    if rolling * s.boxes.getLastD 0 > 0 then
      { boxes := setLast s.boxes (s.boxes.getLastD 0 + rolling)
        new_volumes := setLast s.new_volumes (s.new_volumes.getLastD 0 + vcache)
        new_dates := s.new_dates
        rolling_change := 0, volume_cache := 0, biggest_difference := 0 }
    else
      { boxes := s.boxes ++ [rolling]
        new_volumes := s.new_volumes ++ [vcache]
        new_dates := s.new_dates ++ [pyGet temp_dates (i : ℤ)]
        rolling_change := 0, volume_cache := 0, biggest_difference := 0 }
  else
    { s with rolling_change := rolling, volume_cache := vcache, biggest_difference := biggest }

def pnfPass3Init (adjusted_boxes : List ℤ) (temp_volumes temp_dates : List ℚ) : PnfS3 :=
  { boxes := [adjusted_boxes.getD 0 0], new_volumes := [temp_volumes.getD 0 0]
    new_dates := [temp_dates.getD 0 0], rolling_change := 0, volume_cache := 0
    biggest_difference := 0 }

def pnfPass3 (reversal : ℤ) (adjusted_boxes : List ℤ) (temp_volumes temp_dates : List ℚ) :
    PnfS3 :=
  ((List.range adjusted_boxes.length).drop 1).foldl
    (pnfStep3 reversal adjusted_boxes temp_volumes temp_dates)
    (pnfPass3Init adjusted_boxes temp_volumes temp_dates)

/-- The two statements after the merge loop: `boxes[-1] += biggest_difference`
and `new_volumes[-1] += volume_cache`. -/
def pnfFinal (s : PnfS3) : PnfS3 :=
  { s with
    boxes := setLast s.boxes (s.boxes.getLastD 0 + s.biggest_difference)
    new_volumes := setLast s.new_volumes (s.new_volumes.getLastD 0 + s.volume_cache) }

structure PnfOut where
  counts : List ℤ
  dates : List ℚ
  volumes : List ℚ
  size : ℚ
deriving DecidableEq

/-- `_construct_pointnfig_collections` with an explicit numeric `box_size` and
volumes present: validate the size and the reversal, run the four passes, and
return the calculated values. `none` also models the IndexError Python raises
at `boxes[0]` when no close ever moves a full box. -/
def pnfAggregate (box_size : ℚ) (reversal : ℤ) (dates highs lows closes volumes : List ℚ) :
    Option PnfOut :=
  (sizeBoundsCheck box_size highs lows closes).bind fun bs =>
  if reversal < 1 ∨ 9 < reversal then none
  else
    let s1 := pnfPass1 bs closes volumes dates
    if s1.boxes = [] then none
    else
      let c := combineAdjacent s1.boxes
      let cv := coalesceVolumeDates s1.temp_volumes s1.temp_dates c.2
      let s2 := pnfPass2 c.1 cv.1 cv.2
      let s3 := pnfFinal (pnfPass3 reversal s2.adjusted_boxes s2.temp_volumes s2.temp_dates)
      some { counts := s3.boxes, dates := s3.new_dates, volumes := s3.new_volumes, size := bs }

/-! ## Spec-side reference definitions and ghost instrumentation -/

/-- Spec-side ATR reference, written from the spec text: the true-range terms
at indices `i` from `n - length` to `n - 1` (with `n = len(closes)`). -/
def atrSpecTerms (length : ℕ) (highs lows closes : List ℚ) : List ℚ :=
  (List.range length).map (fun k =>
    trueRange (highs.getD (closes.length - length + k) 0)
      (lows.getD (closes.length - length + k) 0)
      (closes.getD (closes.length - length + k - 1) 0))

/-- Spec-side ATR reference: the arithmetic mean of the true-range terms. -/
def atrSpecMean (length : ℕ) (highs lows closes : List ℚ) : ℚ :=
  (atrSpecTerms length highs lows closes).sum / (length : ℚ)

/-- `pnfStep3` instrumented with a ghost trace: the second component records
the `rolling_change` values seen since the last flush whose sign matched the
current last column's sign. The first component is exactly `pnfStep3`. -/
def pnfStep3Ghost (reversal : ℤ) (adjusted_boxes : List ℤ) (temp_volumes temp_dates : List ℚ)
    (p : PnfS3 × List ℤ) (i : ℕ) : PnfS3 × List ℤ :=
  let s := p.1
  let rolling := s.rolling_change + adjusted_boxes.getD i 0
  let seen := if rolling * s.boxes.getLastD 0 > 0 then p.2 ++ [rolling] else p.2
  let t := pnfStep3 reversal adjusted_boxes temp_volumes temp_dates s i
  if |rolling| ≥ reversal then (t, []) else (t, seen)

/-- The reversal-threshold merge loop with the ghost trace alongside. -/
def pnfPass3Ghost (reversal : ℤ) (adjusted_boxes : List ℤ) (temp_volumes temp_dates : List ℚ) :
    PnfS3 × List ℤ :=
  ((List.range adjusted_boxes.length).drop 1).foldl
    (pnfStep3Ghost reversal adjusted_boxes temp_volumes temp_dates)
    (pnfPass3Init adjusted_boxes temp_volumes temp_dates, [])

/-! ## Theorems -/

/-- The brick units extracted by the Renko first pass do not depend on the
volume or date arrays: the `cdiff` and `prev_close_brick` components of the
fold are driven by `closes` and `brick_size` alone. -/
theorem renkoFold1_cdiff_indep (bs : ℚ) (closes v d v2 d2 : List ℚ) :
    ∀ (idxs : List ℕ) (s s2 : RenkoS1),
      s.cdiff = s2.cdiff → s.prev_close_brick = s2.prev_close_brick →
      (idxs.foldl (renkoStep1 bs closes v d) s).cdiff
          = (idxs.foldl (renkoStep1 bs closes v2 d2) s2).cdiff
      ∧ (idxs.foldl (renkoStep1 bs closes v d) s).prev_close_brick
          = (idxs.foldl (renkoStep1 bs closes v2 d2) s2).prev_close_brick := by
  intro idxs
  induction idxs with
  | nil => intro s s2 h1 h2; exact ⟨h1, h2⟩
  | cons i rest ih =>
    intro s s2 h1 h2
    simp only [List.foldl_cons]
    apply ih
    · simp only [renkoStep1, h2]
      split <;> simp [h1]
    · simp only [renkoStep1, h2]
      split <;> simp

/-- The brick list produced by the Renko second pass depends only on the
unit list and on the `bricks` / `last_diff_sign` components of the state. -/
theorem renkoFold2_bricks_indep :
    ∀ (cdiff : List ℤ) (s s2 : RenkoS2),
      s.bricks = s2.bricks → s.last_diff_sign = s2.last_diff_sign →
      (cdiff.foldl renkoStep2 s).bricks = (cdiff.foldl renkoStep2 s2).bricks := by
  intro cdiff
  induction cdiff with
  | nil => intro s s2 h1 _; exact h1
  | cons diff rest ih =>
    intro s s2 h1 h2
    simp only [List.foldl_cons]
    apply ih
    · simp only [renkoStep2, h2]
      split <;> simp [h1]
    · simp only [renkoStep2, h2]
      split <;> simp

/-- C1 (counterexample): the bricks the code produces on the claim's series
closes = [100,110,120,115,105,95], brick_size = 10 are not [+1,+1,-1,-1]. -/
theorem renko_concrete_bricks_cex :
    renkoBricks 10 [100, 110, 120, 115, 105, 95] [0, 0, 0, 0, 0, 0] [0, 1, 2, 3, 4, 5]
      ≠ [1, 1, -1, -1] := by with_unfolding_all decide

/-- C1 (amended): on closes = [100,110,120,115,105,95] with brick_size = 10
and arbitrary volumes and dates, naive delta division extracts the unit list
[+1,+1,-1,-1], and the reversal-penalty pass drops exactly one unit at the
trend change, so the output brick sequence is [+1,+1,-1] — one fewer brick
than naive delta division predicts. -/
theorem renko_concrete_bricks (volumes dates : List ℚ) :
    (renkoPass1 10 [100, 110, 120, 115, 105, 95] volumes dates).cdiff = [1, 1, -1, -1]
    ∧ renkoBricks 10 [100, 110, 120, 115, 105, 95] volumes dates = [1, 1, -1] := by
  have hind := renkoFold1_cdiff_indep 10 [100, 110, 120, 115, 105, 95] volumes dates
      [0, 0, 0, 0, 0, 0] [0, 1, 2, 3, 4, 5] (List.range 5)
      (renkoInit [100, 110, 120, 115, 105, 95]) (renkoInit [100, 110, 120, 115, 105, 95]) rfl rfl
  have hcd : (renkoPass1 10 [100, 110, 120, 115, 105, 95] volumes dates).cdiff
      = (renkoPass1 10 [100, 110, 120, 115, 105, 95] [0, 0, 0, 0, 0, 0] [0, 1, 2, 3, 4, 5]).cdiff :=
    hind.1
  have hzero : (renkoPass1 10 [100, 110, 120, 115, 105, 95] [0, 0, 0, 0, 0, 0]
      [0, 1, 2, 3, 4, 5]).cdiff = [1, 1, -1, -1] := by with_unfolding_all decide
  refine ⟨hcd.trans hzero, ?_⟩
  have hbr := renkoFold2_bricks_indep
      ((renkoPass1 10 [100, 110, 120, 115, 105, 95] volumes dates).cdiff)
      { bricks := [],
        new_dates := (renkoPass1 10 [100, 110, 120, 115, 105, 95] volumes dates).new_dates,
        new_volumes := (renkoPass1 10 [100, 110, 120, 115, 105, 95] volumes dates).new_volumes,
        last_diff_sign := 0, dates_volumes_index := 0 }
      { bricks := [],
        new_dates := (renkoPass1 10 [100, 110, 120, 115, 105, 95] [0, 0, 0, 0, 0, 0]
          [0, 1, 2, 3, 4, 5]).new_dates,
        new_volumes := (renkoPass1 10 [100, 110, 120, 115, 105, 95] [0, 0, 0, 0, 0, 0]
          [0, 1, 2, 3, 4, 5]).new_volumes,
        last_diff_sign := 0, dates_volumes_index := 0 } rfl rfl
  have hfin : renkoBricks 10 [100, 110, 120, 115, 105, 95] [0, 0, 0, 0, 0, 0]
      [0, 1, 2, 3, 4, 5] = [1, 1, -1] := by with_unfolding_all decide
  have step2eq : renkoBricks 10 [100, 110, 120, 115, 105, 95] volumes dates
      = (List.foldl renkoStep2
          { bricks := [],
            new_dates := (renkoPass1 10 [100, 110, 120, 115, 105, 95] [0, 0, 0, 0, 0, 0]
              [0, 1, 2, 3, 4, 5]).new_dates,
            new_volumes := (renkoPass1 10 [100, 110, 120, 115, 105, 95] [0, 0, 0, 0, 0, 0]
              [0, 1, 2, 3, 4, 5]).new_volumes,
            last_diff_sign := 0, dates_volumes_index := 0 }
          ((renkoPass1 10 [100, 110, 120, 115, 105, 95] volumes dates).cdiff)).bricks := hbr
  rw [step2eq, hcd.trans hzero]
  rw [show ([1, 1, -1, -1] : List ℤ)
      = (renkoPass1 10 [100, 110, 120, 115, 105, 95] [0, 0, 0, 0, 0, 0]
          [0, 1, 2, 3, 4, 5]).cdiff from hzero.symm]
  exact hfin

theorem pyGet_natCast (l : List ℚ) (i : ℕ) : pyGet l (i : ℤ) = l.getD i 0 := by
  have h0 : ¬((i : ℤ) < 0) := by omega
  simp [pyGet, h0]

theorem pyGet_natCast_sub_one (l : List ℚ) (i : ℕ) (h : 1 ≤ i) :
    pyGet l ((i : ℤ) - 1) = l.getD (i - 1) 0 := by
  have h0 : ¬((i : ℤ) - 1 < 0) := by omega
  have h1 : ((i : ℤ) - 1).toNat = i - 1 := by omega
  simp [pyGet, h0, h1]

theorem foldl_add_map {α : Type} (g : α → ℚ) (l : List α) (a : ℚ) :
    l.foldl (fun acc x => acc + g x) a = a + (l.map g).sum := by
  induction l generalizing a with
  | nil => simp
  | cons x t ih => simp [ih, add_assoc]

/-- C6: for highs/lows/closes of a common length `n` and an integer window
`L`, `_calculate_atr` returns the arithmetic mean of exactly `L` true-range
terms — the term at index `i`, for `i` from `n-L` to `n-1`, being
`max(|high[i]-low[i]|, |high[i]-close[i-1]|, |low[i]-close[i-1]|)` — when
`1 ≤ L < n`, and fails (returns `none`) when `L < 1` or `L ≥ n`. -/
theorem atr_is_mean_of_true_ranges (L : ℤ) (highs lows closes : List ℚ)
    (hh : highs.length = closes.length) :
    (1 ≤ L → L < (closes.length : ℤ) →
      calculateATR L highs lows closes = some (atrSpecMean L.toNat highs lows closes)
      ∧ (atrSpecTerms L.toNat highs lows closes).length = L.toNat)
    ∧ (L < 1 → calculateATR L highs lows closes = none)
    ∧ ((closes.length : ℤ) ≤ L → calculateATR L highs lows closes = none) := by
  refine ⟨?_, ?_, ?_⟩
  · intro h1 h2
    have hL1 : ¬(L < 1) := by omega
    have hL2 : ¬((closes.length : ℤ) ≤ L) := by omega
    have hLn : L.toNat ≤ closes.length := by omega
    constructor
    · unfold calculateATR
      rw [if_neg hL1, if_neg hL2]
      have hsplit : highs.length = (highs.length - L.toNat) + L.toNat := by omega
      have hdrop : (List.range highs.length).drop (highs.length - L.toNat)
          = (List.range L.toNat).map ((highs.length - L.toNat) + ·) := by
        conv_lhs => rw [hsplit, List.range_add]
        exact List.drop_left' (by simp)
      dsimp only
      rw [hdrop, foldl_add_map, zero_add, List.map_map]
      unfold atrSpecMean
      congr 1
      congr 1
      · unfold atrSpecTerms
        refine congrArg List.sum ?_
        apply List.map_congr_left
        intro k hk
        have hm1 : 1 ≤ highs.length - L.toNat + k := by omega
        have hidx : closes.length - L.toNat + k = highs.length - L.toNat + k := by omega
        simp only [Function.comp_apply, hidx]
        rw [pyGet_natCast, pyGet_natCast, pyGet_natCast_sub_one _ _ hm1]
      · have hcast : ((L.toNat : ℤ)) = L := Int.toNat_of_nonneg (by omega)
        exact_mod_cast hcast.symm
    · unfold atrSpecTerms
      simp
  · intro h
    unfold calculateATR
    rw [if_pos h]
  · intro h
    unfold calculateATR
    by_cases hL : L < 1
    · rw [if_pos hL]
    · rw [if_neg hL, if_pos h]

/-- Witness for C6: a concrete window of length 2 in a series of length 3,
whose ATR is the mean of the two true ranges 3 and 2. -/
theorem atr_is_mean_of_true_ranges_witness :
    calculateATR 2 [3, 5, 4] [1, 2, 2] [2, 4, 3]
      = some (atrSpecMean (2 : ℤ).toNat [3, 5, 4] [1, 2, 2] [2, 4, 3])
    ∧ atrSpecMean (2 : ℤ).toNat [3, 5, 4] [1, 2, 2] [2, 4, 3] = 5 / 2 :=
  ⟨((atr_is_mean_of_true_ranges 2 [3, 5, 4] [1, 2, 2] [2, 4, 3] rfl).1
      (by decide) (by decide)).1,
   by with_unfolding_all decide⟩

/-- C7 (counterexample): on highs [10,10], lows [0,0], closes [5,5] the ATR
is 10, so the lower bound is 1/10 while the upper bound (half the close
range) is 0; the explicitly configured size 1/10 sits exactly at the lower
bound, yet the shared validation rejects it. -/
theorem size_bounds_cex :
    calculateATR ((([5, 5] : List ℚ).length : ℤ) - 1) [10, 10] [0, 0] [5, 5] = some 10
    ∧ (1 / 10 : ℚ) = (1 / 100) * 10
    ∧ sizeBoundsCheck (1 / 10) [10, 10] [0, 0] [5, 5] = none := by
  with_unfolding_all decide

/-- C7 (amended): provided the computed lower bound `0.01 * ATR` does not
exceed the upper bound `(max(close) - min(close)) / 2`, a size exactly at
either bound passes the shared validation, a size strictly below the lower
bound or strictly above the upper bound is rejected, and a rejected size
makes both aggregators fail before producing any output. -/
theorem size_bounds_boundary (size : ℚ) (highs lows closes : List ℚ) (atr : ℚ)
    (hatr : calculateATR ((closes.length : ℤ) - 1) highs lows closes = some atr)
    (hle : (1 / 100) * atr ≤ (listMax closes - listMin closes) / 2) :
    sizeBoundsCheck ((1 / 100) * atr) highs lows closes = some ((1 / 100) * atr)
    ∧ sizeBoundsCheck ((listMax closes - listMin closes) / 2) highs lows closes
        = some ((listMax closes - listMin closes) / 2)
    ∧ (size < (1 / 100) * atr → sizeBoundsCheck size highs lows closes = none)
    ∧ ((listMax closes - listMin closes) / 2 < size →
        sizeBoundsCheck size highs lows closes = none)
    ∧ (sizeBoundsCheck size highs lows closes = none →
        (∀ dates volumes, renkoAggregate size dates highs lows closes volumes = none)
        ∧ (∀ reversal dates volumes,
            pnfAggregate size reversal dates highs lows closes volumes = none)) := by
  refine ⟨?_, ?_, ?_, ?_, ?_⟩
  · simp only [sizeBoundsCheck, hatr]
    rw [if_neg (by linarith), if_neg (by linarith)]
  · simp only [sizeBoundsCheck, hatr]
    rw [if_neg (by linarith), if_neg (by linarith)]
  · intro h
    simp only [sizeBoundsCheck, hatr]
    by_cases hup : (listMax closes - listMin closes) / 2 < size
    · rw [if_pos hup]
    · rw [if_neg hup, if_pos h]
  · intro h
    simp only [sizeBoundsCheck, hatr]
    rw [if_pos h]
  · intro h
    refine ⟨fun dates volumes => ?_, fun reversal dates volumes => ?_⟩
    · unfold renkoAggregate
      rw [h]
      rfl
    · unfold pnfAggregate
      rw [h]
      rfl

/-- Witness for C7: closes [2,4,3] give ATR 5/2 over the full-series window,
lower bound 1/40, upper bound 1; the lower bound itself is accepted. -/
theorem size_bounds_boundary_witness :
    calculateATR ((([2, 4, 3] : List ℚ).length : ℤ) - 1) [3, 5, 4] [1, 2, 2] [2, 4, 3]
      = some (5 / 2)
    ∧ (1 / 100 : ℚ) * (5 / 2) ≤ (listMax [2, 4, 3] - listMin [2, 4, 3]) / 2
    ∧ sizeBoundsCheck ((1 / 100) * (5 / 2)) [3, 5, 4] [1, 2, 2] [2, 4, 3]
        = some ((1 / 100) * (5 / 2)) :=
  ⟨by with_unfolding_all decide, by with_unfolding_all decide,
   (size_bounds_boundary 2 [3, 5, 4] [1, 2, 2] [2, 4, 3] (5 / 2)
      (by with_unfolding_all decide) (by with_unfolding_all decide)).1⟩

/-- C8: at every step of the Renko delta-extraction loop, the running
reference close equals `closes[0] + k * brick_size` for some integer `k`. -/
theorem renko_reference_close_drift (brick_size : ℚ) (closes volumes dates : List ℚ) (m : ℕ) :
    ∃ k : ℤ, (renkoPass1Upto brick_size closes volumes dates m).prev_close_brick
      = pyGet closes 0 + (k : ℚ) * brick_size := by
  have key : ∀ (idxs : List ℕ) (s : RenkoS1),
      (∃ k : ℤ, s.prev_close_brick = pyGet closes 0 + (k : ℚ) * brick_size) →
      ∃ k : ℤ, ((idxs.foldl (renkoStep1 brick_size closes volumes dates) s).prev_close_brick
        = pyGet closes 0 + (k : ℚ) * brick_size) := by
    intro idxs
    induction idxs with
    | nil => intro s h; exact h
    | cons i rest ih =>
      intro s h
      obtain ⟨k, hk⟩ := h
      simp only [List.foldl_cons]
      apply ih
      simp only [renkoStep1]
      split
      · exact ⟨k, hk⟩
      · refine ⟨k + pyint ((pyGet closes ((i : ℤ) + 1) - s.prev_close_brick) / brick_size), ?_⟩
        simp only [hk]
        push_cast
        ring
  exact key _ _ ⟨0, by simp [renkoInit]⟩

theorem pySet_length (l : List ℚ) (i : ℤ) (v : ℚ) : (pySet l i v).length = l.length := by
  simp only [pySet]
  split
  · split <;> simp
  · simp

theorem brickValuesGo_length (bs : ℚ) : ∀ (c : ℚ) (l : List ℤ),
    (brickValuesGo bs c l).length = l.length := by
  intro c l
  induction l generalizing c with
  | nil => rfl
  | cons n rest ih => simp [brickValuesGo, ih]

/-- Delta-extraction invariant: the unit list, date list and volume list all
grow in lockstep, and every extracted unit is `+1` or `-1`. -/
theorem renkoFold1_aligned (bs : ℚ) (closes volumes dates : List ℚ) :
    ∀ (idxs : List ℕ) (s : RenkoS1),
      s.cdiff.length = s.new_dates.length → s.cdiff.length = s.new_volumes.length →
      (∀ x ∈ s.cdiff, x = 1 ∨ x = -1) →
      (idxs.foldl (renkoStep1 bs closes volumes dates) s).cdiff.length
          = (idxs.foldl (renkoStep1 bs closes volumes dates) s).new_dates.length
      ∧ (idxs.foldl (renkoStep1 bs closes volumes dates) s).cdiff.length
          = (idxs.foldl (renkoStep1 bs closes volumes dates) s).new_volumes.length
      ∧ ∀ x ∈ (idxs.foldl (renkoStep1 bs closes volumes dates) s).cdiff, x = 1 ∨ x = -1 := by
  intro idxs
  induction idxs with
  | nil => intro s h1 h2 h3; exact ⟨h1, h2, h3⟩
  | cons i rest ih =>
    intro s h1 h2 h3
    simp only [List.foldl_cons]
    apply ih
    · simp only [renkoStep1]
      split
      · exact h1
      · simp [h1]
    · simp only [renkoStep1]
      split
      · exact h2
      · simp [h2]
    · simp only [renkoStep1]
      split
      · exact h3
      · intro x hx
        rcases List.mem_append.mp hx with hx | hx
        · exact h3 x hx
        · have hsgn := List.eq_of_mem_replicate hx
          subst hsgn
          rename_i hbd
          generalize pyint ((pyGet closes ((i : ℤ) + 1) - s.prev_close_brick) / bs) = bd at *
          match bd, hbd with
          | Int.ofNat (n + 1), _ => left; rfl
          | Int.negSucc n, _ => right; rfl

/-- Reversal-penalty invariant: on unit inputs, every emission adds one
brick and advances the cursor, every drop removes exactly one date and one
volume entry, so the final brick, date and volume lists have equal length. -/
theorem renkoFold2_lengths :
    ∀ (cdiff : List ℤ) (s : RenkoS2),
      (∀ x ∈ cdiff, x = 1 ∨ x = -1) →
      s.new_dates.length = s.new_volumes.length →
      s.bricks.length + cdiff.length = s.new_dates.length →
      s.dates_volumes_index = s.bricks.length →
      (cdiff.foldl renkoStep2 s).bricks.length = (cdiff.foldl renkoStep2 s).new_dates.length
      ∧ (cdiff.foldl renkoStep2 s).new_dates.length
          = (cdiff.foldl renkoStep2 s).new_volumes.length := by
  intro cdiff
  induction cdiff with
  | nil =>
    intro s _ h2 h3 _
    simp only [List.foldl_nil]
    simp only [List.length_nil, Nat.add_zero] at h3
    omega
  | cons diff rest ih =>
    intro s hunit h2 h3 hidx
    simp only [List.foldl_cons]
    have hdiff := hunit diff (List.mem_cons_self diff rest)
    have hidxlt : s.dates_volumes_index < s.new_dates.length := by
      simp only [List.length_cons] at h3
      omega
    by_cases hcond : s.last_diff_sign ≠ 0 ∧ diff.sign ≠ s.last_diff_sign
    · have hstep : renkoStep2 s diff =
          { s with
            last_diff_sign := diff.sign
            new_dates := s.new_dates.eraseIdx s.dates_volumes_index
            new_volumes :=
              (if (s.dates_volumes_index : ℤ) = (s.new_volumes.length : ℤ) - 1 then
                pySet s.new_volumes ((s.dates_volumes_index : ℤ) - 1)
                  (pyGet s.new_volumes ((s.dates_volumes_index : ℤ) - 1)
                    + pyGet s.new_volumes (s.dates_volumes_index : ℤ))
              else
                pySet s.new_volumes ((s.dates_volumes_index : ℤ) + 1)
                  (pyGet s.new_volumes ((s.dates_volumes_index : ℤ) + 1)
                    + pyGet s.new_volumes (s.dates_volumes_index : ℤ))).eraseIdx
                s.dates_volumes_index } := by
        unfold renkoStep2
        rw [if_pos hcond]
      rw [hstep]
      apply ih
      · exact fun x hx => hunit x (List.mem_cons_of_mem _ hx)
      · have hvlen : (if (s.dates_volumes_index : ℤ) = (s.new_volumes.length : ℤ) - 1 then
            pySet s.new_volumes ((s.dates_volumes_index : ℤ) - 1)
              (pyGet s.new_volumes ((s.dates_volumes_index : ℤ) - 1)
                + pyGet s.new_volumes (s.dates_volumes_index : ℤ))
          else
            pySet s.new_volumes ((s.dates_volumes_index : ℤ) + 1)
              (pyGet s.new_volumes ((s.dates_volumes_index : ℤ) + 1)
                + pyGet s.new_volumes (s.dates_volumes_index : ℤ))).length
            = s.new_volumes.length := by
          split <;> rw [pySet_length]
        simp only [List.length_eraseIdx, hvlen]
        rw [if_pos hidxlt, if_pos (show s.dates_volumes_index < s.new_volumes.length by omega)]
        omega
      · simp only [List.length_eraseIdx]
        rw [if_pos hidxlt]
        simp only [List.length_cons] at h3
        omega
      · exact hidx
    · have hstep : renkoStep2 s diff =
          { s with
            last_diff_sign := diff.sign
            bricks := s.bricks ++ List.replicate diff.natAbs (if 0 < diff then 1 else -1)
            dates_volumes_index := s.dates_volumes_index + 1 } := by
        unfold renkoStep2
        rw [if_neg hcond]
      rw [hstep]
      apply ih
      · exact fun x hx => hunit x (List.mem_cons_of_mem _ hx)
      · exact h2
      · simp only [List.length_append, List.length_replicate, List.length_cons] at h3 ⊢
        rcases hdiff with h | h <;> subst h <;> simp <;> omega
      · simp only [List.length_append, List.length_replicate]
        rcases hdiff with h | h <;> subst h <;> simp [hidx]

/-- C10: with volumes present, a successful Renko aggregation returns
bricks, dates, volumes and brick values of one common length. -/
theorem renko_outputs_aligned (brick_size : ℚ) (dates highs lows closes volumes : List ℚ)
    (out : RenkoOut) (h : renkoAggregate brick_size dates highs lows closes volumes = some out) :
    out.bricks.length = out.dates.length ∧ out.dates.length = out.volumes.length
    ∧ out.bricks.length = out.values.length := by
  unfold renkoAggregate at h
  cases hc : sizeBoundsCheck brick_size highs lows closes with
  | none => rw [hc] at h; simp at h
  | some bs =>
    rw [hc] at h
    simp only [Option.some_bind, Option.some.injEq] at h
    subst h
    have ha := renkoFold1_aligned bs closes volumes dates
      (List.range (closes.length - 1)) (renkoInit closes) rfl rfl (by intro x hx; simp [renkoInit] at hx)
    have hb := renkoFold2_lengths
      (renkoPass1 bs closes volumes dates).cdiff
      { bricks := [], new_dates := (renkoPass1 bs closes volumes dates).new_dates
        new_volumes := (renkoPass1 bs closes volumes dates).new_volumes
        last_diff_sign := 0, dates_volumes_index := 0 }
      ha.2.2 (ha.1.symm.trans ha.2.1) (by simpa using ha.1) rfl
    exact ⟨hb.1, hb.2, (brickValuesGo_length bs (pyGet closes 0) _).symm⟩

theorem sum_set (l : List ℚ) : ∀ n : ℕ, n < l.length → ∀ a : ℚ,
    (l.set n a).sum = l.sum - l.getD n 0 + a := by
  induction l with
  | nil => intro n h; simp at h
  | cons x t ih =>
    intro n h a
    cases n with
    | zero => simp [List.sum_cons]; ring
    | succ m =>
      rw [List.set_cons_succ, List.sum_cons, List.sum_cons, List.getD_cons_succ,
        ih m (by simpa using h) a]
      ring

theorem sum_eraseIdx (l : List ℚ) : ∀ n : ℕ, n < l.length →
    (l.eraseIdx n).sum = l.sum - l.getD n 0 := by
  induction l with
  | nil => intro n h; simp at h
  | cons x t ih =>
    intro n h
    cases n with
    | zero => simp [List.eraseIdx_cons_zero]
    | succ m =>
      rw [List.eraseIdx_cons_succ, List.sum_cons, List.sum_cons, List.getD_cons_succ,
        ih m (by simpa using h)]
      ring

theorem getD_set_ne (l : List ℚ) : ∀ (m n : ℕ), m ≠ n → ∀ a : ℚ,
    (l.set m a).getD n 0 = l.getD n 0 := by
  induction l with
  | nil => intro m n _ a; simp
  | cons x t ih =>
    intro m n hmn a
    cases m with
    | zero =>
      cases n with
      | zero => exact absurd rfl hmn
      | succ k => simp [List.getD_cons_succ]
    | succ j =>
      cases n with
      | zero => simp [List.set_cons_succ, List.getD_cons_zero]
      | succ k => simp only [List.set_cons_succ, List.getD_cons_succ]; exact ih j k (by omega) a

theorem pyGet_nonneg (l : List ℚ) (i : ℤ) (h : 0 ≤ i) : pyGet l i = l.getD i.toNat 0 := by
  simp [pyGet, show ¬(i < 0) by omega]

theorem pySet_nonneg (l : List ℚ) (i : ℤ) (h : 0 ≤ i) (v : ℚ) : pySet l i v = l.set i.toNat v := by
  simp [pySet, show ¬(i < 0) by omega]

/-- Renko conservation: one drop step moves the dropped entry's volume onto
a surviving neighbor before the entry is removed, so the reversal-penalty
loop never changes the total of the resampled volumes. -/
theorem renkoFold2_volume_sum :
    ∀ (cdiff : List ℤ) (s : RenkoS2),
      (s.last_diff_sign ≠ 0 → 1 ≤ s.dates_volumes_index) →
      s.dates_volumes_index + cdiff.length ≤ s.new_volumes.length →
      (cdiff.foldl renkoStep2 s).new_volumes.sum = s.new_volumes.sum := by
  intro cdiff
  induction cdiff with
  | nil => intro s _ _; rfl
  | cons diff rest ih =>
    intro s hone hlen
    simp only [List.foldl_cons, List.length_cons] at hlen ⊢
    by_cases hcond : s.last_diff_sign ≠ 0 ∧ diff.sign ≠ s.last_diff_sign
    · have hidx1 : 1 ≤ s.dates_volumes_index := hone hcond.1
      have hidxlt : s.dates_volumes_index < s.new_volumes.length := by omega
      have hstep : renkoStep2 s diff =
          { s with
            last_diff_sign := diff.sign
            new_dates := s.new_dates.eraseIdx s.dates_volumes_index
            new_volumes :=
              (if (s.dates_volumes_index : ℤ) = (s.new_volumes.length : ℤ) - 1 then
                pySet s.new_volumes ((s.dates_volumes_index : ℤ) - 1)
                  (pyGet s.new_volumes ((s.dates_volumes_index : ℤ) - 1)
                    + pyGet s.new_volumes (s.dates_volumes_index : ℤ))
              else
                pySet s.new_volumes ((s.dates_volumes_index : ℤ) + 1)
                  (pyGet s.new_volumes ((s.dates_volumes_index : ℤ) + 1)
                    + pyGet s.new_volumes (s.dates_volumes_index : ℤ))).eraseIdx
                s.dates_volumes_index } := by
        unfold renkoStep2
        rw [if_pos hcond]
      rw [hstep]
      set idx := s.dates_volumes_index with hidxdef
      set v := s.new_volumes with hvdef
      have hsum : (((if (idx : ℤ) = (v.length : ℤ) - 1 then
            pySet v ((idx : ℤ) - 1) (pyGet v ((idx : ℤ) - 1) + pyGet v (idx : ℤ))
          else
            pySet v ((idx : ℤ) + 1)
              (pyGet v ((idx : ℤ) + 1) + pyGet v (idx : ℤ))).eraseIdx idx).sum : ℚ)
            = v.sum := by
        split
        · rename_i hlast
          have ht : ((idx : ℤ) - 1).toNat = idx - 1 := by omega
          rw [pySet_nonneg v _ (by omega), pyGet_nonneg v _ (by omega), pyGet_nonneg v _ (by omega),
            ht, Int.toNat_natCast]
          rw [sum_eraseIdx _ idx (by rw [List.length_set]; omega),
            getD_set_ne v (idx - 1) idx (by omega),
            sum_set v (idx - 1) (by omega)]
          ring
        · rename_i hlast
          have hlt : idx + 1 < v.length := by omega
          have ht : ((idx : ℤ) + 1).toNat = idx + 1 := by omega
          rw [pySet_nonneg v _ (by omega), pyGet_nonneg v _ (by omega), pyGet_nonneg v _ (by omega),
            ht, Int.toNat_natCast]
          rw [sum_eraseIdx _ idx (by rw [List.length_set]; omega),
            getD_set_ne v (idx + 1) idx (by omega),
            sum_set v (idx + 1) (by omega)]
          ring
      have hinv2 : idx + rest.length ≤
          ((if (idx : ℤ) = (v.length : ℤ) - 1 then
            pySet v ((idx : ℤ) - 1) (pyGet v ((idx : ℤ) - 1) + pyGet v (idx : ℤ))
          else
            pySet v ((idx : ℤ) + 1)
              (pyGet v ((idx : ℤ) + 1) + pyGet v (idx : ℤ))).eraseIdx idx).length := by
        simp only [List.length_eraseIdx]
        rw [if_pos (by split <;> rw [pySet_length] <;> omega)]
        split <;> rw [pySet_length] <;> omega
      rw [ih { s with
            last_diff_sign := diff.sign
            new_dates := s.new_dates.eraseIdx idx
            new_volumes :=
              (if (idx : ℤ) = (v.length : ℤ) - 1 then
                pySet v ((idx : ℤ) - 1) (pyGet v ((idx : ℤ) - 1) + pyGet v (idx : ℤ))
              else
                pySet v ((idx : ℤ) + 1)
                  (pyGet v ((idx : ℤ) + 1) + pyGet v (idx : ℤ))).eraseIdx idx }
          (fun _ => hidx1) hinv2]
      exact hsum
    · have hstep : renkoStep2 s diff =
          { s with
            last_diff_sign := diff.sign
            bricks := s.bricks ++ List.replicate diff.natAbs (if 0 < diff then 1 else -1)
            dates_volumes_index := s.dates_volumes_index + 1 } := by
        unfold renkoStep2
        rw [if_neg hcond]
      rw [hstep]
      apply ih
      · intro _
        show 1 ≤ s.dates_volumes_index + 1
        omega
      · show s.dates_volumes_index + 1 + rest.length ≤ s.new_volumes.length
        omega

theorem getD_length_sub_one (l : List ℚ) (h : l ≠ []) :
    l.getD (l.length - 1) 0 = l.getLastD 0 := by
  induction l with
  | nil => exact absurd rfl h
  | cons x t ih =>
    cases t with
    | nil => rfl
    | cons y u =>
      have : (x :: y :: u).length - 1 = (y :: u).length - 1 + 1 := by simp
      rw [this, List.getD_cons_succ, ih (by simp), List.getLastD_cons, List.getLastD_cons,
        List.getLastD_cons]

theorem sum_setLast_add (l : List ℚ) (h : l ≠ []) (x : ℚ) :
    (setLast l (l.getLastD 0 + x)).sum = l.sum + x := by
  have hlen : l.length - 1 < l.length := by
    cases l with
    | nil => exact absurd rfl h
    | cons a t => simp
  unfold setLast
  rw [sum_set l (l.length - 1) hlen, getD_length_sub_one l h]
  ring

theorem setLast_ne_nil {α : Type} (l : List α) (h : l ≠ []) (v : α) : setLast l v ≠ [] := by
  unfold setLast
  intro hfalse
  have hlen := congrArg List.length hfalse
  rw [List.length_set] at hlen
  exact h (List.length_eq_zero.mp hlen)

theorem map_getD_range (l : List ℚ) :
    (List.range l.length).map (fun i => l.getD i 0) = l := by
  induction l with
  | nil => simp
  | cons x t ih =>
    rw [List.length_cons, List.range_succ_eq_map, List.map_cons, List.map_map]
    have hfun : ((fun i => (x :: t).getD i 0) ∘ Nat.succ) = fun i => t.getD i 0 := by
      funext i
      simp
    rw [hfun, ih]
    simp

/-- PnF conservation bookkeeping: through one merge-loop step, the quantity
(volume total of the columns) + (pending volume cache) grows by exactly the
step's incoming volume. -/
theorem pnfStep3_volume_sum (reversal : ℤ) (adjusted : List ℤ) (tv td : List ℚ)
    (s : PnfS3) (i : ℕ) (h : s.new_volumes ≠ []) :
    (pnfStep3 reversal adjusted tv td s i).new_volumes.sum
        + (pnfStep3 reversal adjusted tv td s i).volume_cache
      = s.new_volumes.sum + s.volume_cache + pyGet tv (i : ℤ)
    ∧ (pnfStep3 reversal adjusted tv td s i).new_volumes ≠ [] := by
  simp only [pnfStep3]
  split
  · split
    · constructor
      · simp only
        rw [sum_setLast_add _ h]
        ring
      · exact setLast_ne_nil _ h _
    · constructor
      · simp only [List.sum_append, List.sum_cons, List.sum_nil]
        ring
      · simp
  · constructor
    · simp only
      ring
    · exact h

/-- PnF conservation over the whole merge loop, final adjustment included. -/
theorem pnfFold3_volume_sum (reversal : ℤ) (adjusted : List ℤ) (tv td : List ℚ) :
    ∀ (idxs : List ℕ) (s : PnfS3), s.new_volumes ≠ [] →
      (pnfFinal (idxs.foldl (pnfStep3 reversal adjusted tv td) s)).new_volumes.sum
        = s.new_volumes.sum + s.volume_cache
          + (idxs.map (fun (i : ℕ) => pyGet tv (i : ℤ))).sum := by
  intro idxs
  induction idxs with
  | nil =>
    intro s h
    simp only [List.foldl_nil, List.map_nil, List.sum_nil, add_zero]
    unfold pnfFinal
    simp only
    rw [sum_setLast_add _ h]
  | cons i rest ih =>
    intro s h
    simp only [List.foldl_cons, List.map_cons, List.sum_cons]
    have hstep := pnfStep3_volume_sum reversal adjusted tv td s i h
    rw [ih _ hstep.2, hstep.1]
    ring

/-- C2 (amended): conservation holds for the two reversal passes over the
already-resampled volumes — the Renko reversal-penalty pass keeps the sum of
the resampled volumes unchanged, and the PnF reversal-threshold merge pass
(final `biggest_difference` / `volume_cache` adjustment included) outputs
volumes summing to its whole input — even though neither aggregator
conserves the original input volume sum end-to-end. -/
theorem reversal_passes_conserve_volume :
    (∀ (cdiff : List ℤ) (nd nv : List ℚ), cdiff.length ≤ nv.length →
      (renkoPass2 cdiff nd nv).new_volumes.sum = nv.sum)
    ∧ (∀ (reversal : ℤ) (adjusted : List ℤ) (tv td : List ℚ),
        adjusted.length = tv.length → adjusted ≠ [] →
        (pnfFinal (pnfPass3 reversal adjusted tv td)).new_volumes.sum = tv.sum) := by
  constructor
  · intro cdiff nd nv hlen
    exact renkoFold2_volume_sum cdiff _ (fun hfalse => absurd rfl hfalse) (by simpa using hlen)
  · intro reversal adjusted tv td hlen hne
    unfold pnfPass3
    rw [pnfFold3_volume_sum reversal adjusted tv td _ _ (by simp [pnfPass3Init])]
    simp only [pnfPass3Init]
    have htv : tv ≠ [] := by
      intro hfalse
      rw [hfalse] at hlen
      simp at hlen
      exact hne hlen
    have hdrop : ((List.range adjusted.length).drop 1).map (fun (i : ℕ) => pyGet tv (i : ℤ))
        = tv.drop 1 := by
      have hpg : ∀ i : ℕ, pyGet tv (i : ℤ) = tv.getD i 0 := fun i => pyGet_natCast tv i
      calc ((List.range adjusted.length).drop 1).map (fun (i : ℕ) => pyGet tv (i : ℤ))
          = ((List.range tv.length).drop 1).map (fun i => tv.getD i 0) := by
            rw [hlen]
            exact List.map_congr_left (fun i _ => hpg i)
        _ = ((List.range tv.length).map (fun i => tv.getD i 0)).drop 1 := by
            rw [List.map_drop]
        _ = tv.drop 1 := by rw [map_getD_range]
    rw [hdrop]
    cases tv with
    | nil => exact absurd rfl htv
    | cons x t =>
      simp only [List.getD_cons_zero, List.sum_cons, List.drop_succ_cons, List.drop_zero,
        List.sum_cons, List.sum_nil]
      ring

/-- C2 (counterexample): on closes [0,2] with brick_size 1 and volumes
[5,7], the Renko aggregation succeeds and returns resampled volumes [5,5]
(the emitted bucket volume is replicated across both bricks and the final
period's volume is dropped), so the output volume total 10 differs from the
input total 12. -/
theorem volume_not_conserved_cex :
    (renkoAggregate 1 [0, 1] [0, 2] [0, 0] [0, 2] [5, 7]).map (fun o => o.volumes.sum)
      = some 10
    ∧ ([5, 7] : List ℚ).sum = 12
    ∧ (10 : ℚ) ≠ 12 := by
  refine ⟨by with_unfolding_all decide, by with_unfolding_all decide, by norm_num⟩

/-- Witness for C2: both conservation statements applied at concrete runs. -/
theorem reversal_passes_conserve_volume_witness :
    (renkoPass2 [1, -1] [0, 0] [3, 4]).new_volumes.sum = ([3, 4] : List ℚ).sum
    ∧ (pnfFinal (pnfPass3 1 [2, -3] [1, 5] [0, 0])).new_volumes.sum = ([1, 5] : List ℚ).sum :=
  ⟨reversal_passes_conserve_volume.1 [1, -1] [0, 0] [3, 4] (by decide),
   reversal_passes_conserve_volume.2 1 [2, -3] [1, 5] [0, 0] (by decide) (by decide)⟩

/-- Witness for C10: a concrete successful Renko run with aligned outputs. -/
theorem renko_outputs_aligned_witness :
    renkoAggregate 1 [0, 1] [0, 2] [0, 0] [0, 2] [5, 7]
      = some { bricks := [1, 1], dates := [0, 0], volumes := [5, 5], values := [1, 2], size := 1 }
    ∧ ([1, 1] : List ℤ).length = ([0, 0] : List ℚ).length :=
  ⟨by with_unfolding_all decide,
   (renko_outputs_aligned 1 [0, 1] [0, 2] [0, 0] [0, 2] [5, 7]
      { bricks := [1, 1], dates := [0, 0], volumes := [5, 5], values := [1, 2], size := 1 }
      (by with_unfolding_all decide)).1⟩

theorem set_erase_mid (v : List ℚ) (idx : ℕ) (hlt : idx + 1 < v.length) (a : ℚ) :
    (v.set (idx + 1) a).eraseIdx idx = v.take idx ++ [a] ++ v.drop (idx + 2) := by
  have hset : v.set (idx + 1) a = v.take (idx + 1) ++ a :: v.drop (idx + 2) := by
    rw [List.set_eq_take_append_cons_drop, if_pos hlt]
  have hlen : (v.take (idx + 1)).length = idx + 1 := by
    rw [List.length_take]
    omega
  rw [hset, List.eraseIdx_eq_take_drop_succ, List.take_append_eq_append_take, List.take_take,
    min_eq_left (by omega), hlen, show idx - (idx + 1) = 0 from by omega, List.take_zero,
    List.append_nil, List.drop_left' hlen]
  simp

theorem set_erase_last (v : List ℚ) (idx : ℕ) (h1 : 1 ≤ idx) (h2 : idx = v.length - 1) (a : ℚ) :
    (v.set (idx - 1) a).eraseIdx idx = v.take (idx - 1) ++ [a] := by
  have hvlen : 1 ≤ v.length := by omega
  have hset : v.set (idx - 1) a = v.take (idx - 1) ++ a :: v.drop idx := by
    rw [List.set_eq_take_append_cons_drop, if_pos (show idx - 1 < v.length by omega),
      show idx - 1 + 1 = idx from by omega]
  have hTlen : (v.take (idx - 1)).length = idx - 1 := by
    rw [List.length_take]
    omega
  have htot : (v.take (idx - 1) ++ a :: v.drop idx).length ≤ idx + 1 := by
    rw [List.length_append, hTlen, List.length_cons, List.length_drop]
    omega
  rw [hset, List.eraseIdx_eq_take_drop_succ, List.take_append_eq_append_take, List.take_take,
    min_eq_right (by omega), hTlen, show idx - (idx - 1) = 1 from by omega,
    List.drop_eq_nil_of_le htot, List.append_nil]
  simp

/-- C3 (counterexample): with closes [100,110,120,115,105,95], brick 10 and
volumes [1,2,4,8,16,32], the unit dropped at the reversal sits at index 2 of
the resampled lists of length 4, so it is not the last entry; its volume 12
is folded into the FOLLOWING entry — output volumes [1,2,28] — not into the
previous entry as the claim predicts (which would give [1,14,16]). -/
theorem renko_drop_fold_cex :
    (renkoPass2 (renkoPass1 10 [100, 110, 120, 115, 105, 95] [1, 2, 4, 8, 16, 32]
        [0, 1, 2, 3, 4, 5]).cdiff
      (renkoPass1 10 [100, 110, 120, 115, 105, 95] [1, 2, 4, 8, 16, 32]
        [0, 1, 2, 3, 4, 5]).new_dates
      (renkoPass1 10 [100, 110, 120, 115, 105, 95] [1, 2, 4, 8, 16, 32]
        [0, 1, 2, 3, 4, 5]).new_volumes).new_volumes = [1, 2, 28]
    ∧ ([1, 2, 28] : List ℚ) ≠ [1, 14, 16] := by
  with_unfolding_all decide

/-- C3 (amended): when a unit's sign differs from a nonzero
`last_diff_sign`, the reversal-penalty step drops the unit: no brick is
emitted, the cursor stays, the date entry at the cursor is removed, and the
dropped entry's volume is folded into the FOLLOWING entry when the dropped
entry is not the last one, and into the PREVIOUS entry when it is the last
one (the opposite orientation from the claim). -/
theorem renko_reversal_drop_step (s : RenkoS2) (diff : ℤ)
    (hlast : s.last_diff_sign ≠ 0) (hsign : diff.sign ≠ s.last_diff_sign)
    (hidx1 : 1 ≤ s.dates_volumes_index)
    (hidxlt : s.dates_volumes_index < s.new_volumes.length) :
    (renkoStep2 s diff).bricks = s.bricks
    ∧ (renkoStep2 s diff).dates_volumes_index = s.dates_volumes_index
    ∧ (renkoStep2 s diff).last_diff_sign = diff.sign
    ∧ (renkoStep2 s diff).new_dates = s.new_dates.eraseIdx s.dates_volumes_index
    ∧ (renkoStep2 s diff).new_volumes =
        (if s.dates_volumes_index = s.new_volumes.length - 1 then
          s.new_volumes.take (s.dates_volumes_index - 1)
            ++ [s.new_volumes.getD (s.dates_volumes_index - 1) 0
                + s.new_volumes.getD s.dates_volumes_index 0]
        else
          s.new_volumes.take s.dates_volumes_index
            ++ [s.new_volumes.getD (s.dates_volumes_index + 1) 0
                + s.new_volumes.getD s.dates_volumes_index 0]
            ++ s.new_volumes.drop (s.dates_volumes_index + 2)) := by
  have hcond : s.last_diff_sign ≠ 0 ∧ diff.sign ≠ s.last_diff_sign := ⟨hlast, hsign⟩
  have hstep : renkoStep2 s diff =
      { s with
        last_diff_sign := diff.sign
        new_dates := s.new_dates.eraseIdx s.dates_volumes_index
        new_volumes :=
          (if (s.dates_volumes_index : ℤ) = (s.new_volumes.length : ℤ) - 1 then
            pySet s.new_volumes ((s.dates_volumes_index : ℤ) - 1)
              (pyGet s.new_volumes ((s.dates_volumes_index : ℤ) - 1)
                + pyGet s.new_volumes (s.dates_volumes_index : ℤ))
          else
            pySet s.new_volumes ((s.dates_volumes_index : ℤ) + 1)
              (pyGet s.new_volumes ((s.dates_volumes_index : ℤ) + 1)
                + pyGet s.new_volumes (s.dates_volumes_index : ℤ))).eraseIdx
            s.dates_volumes_index } := by
    unfold renkoStep2
    rw [if_pos hcond]
  rw [hstep]
  refine ⟨rfl, rfl, rfl, rfl, ?_⟩
  set idx := s.dates_volumes_index with hidxdef
  set v := s.new_volumes with hvdef
  by_cases hl : idx = v.length - 1
  · rw [if_pos (show (idx : ℤ) = (v.length : ℤ) - 1 from by omega), if_pos hl]
    rw [pySet_nonneg v _ (by omega), pyGet_nonneg v ((idx : ℤ) - 1) (by omega),
      pyGet_nonneg v (idx : ℤ) (by omega),
      show ((idx : ℤ) - 1).toNat = idx - 1 from by omega, Int.toNat_natCast]
    exact set_erase_last v idx hidx1 hl _
  · rw [if_neg (show ¬((idx : ℤ) = (v.length : ℤ) - 1) from by omega), if_neg hl]
    rw [pySet_nonneg v _ (by omega), pyGet_nonneg v ((idx : ℤ) + 1) (by omega),
      pyGet_nonneg v (idx : ℤ) (by omega),
      show ((idx : ℤ) + 1).toNat = idx + 1 from by omega, Int.toNat_natCast]
    exact set_erase_mid v idx (by omega) _

/-- Witness for C3: the drop step applied at a concrete mid-list state. -/
theorem renko_reversal_drop_step_witness :
    (renkoStep2 { bricks := [1, 1], new_dates := [10, 20, 30, 40],
                  new_volumes := [1, 2, 12, 16], last_diff_sign := 1,
                  dates_volumes_index := 2 }
      (-1)).new_volumes = [1, 2, 28] := by
  obtain ⟨-, -, -, -, h⟩ := renko_reversal_drop_step
      { bricks := [1, 1], new_dates := [10, 20, 30, 40], new_volumes := [1, 2, 12, 16],
        last_diff_sign := 1, dates_volumes_index := 2 }
      (-1) (by decide) (by decide) (by decide) (by decide)
  rw [h]
  with_unfolding_all decide

/-- C4: the reversal-threshold merge loop flushes (changes the column,
volume or date lists) only when `|rolling_change| ≥ reversal`; below the
threshold the step only accumulates. Concretely, with reversal = 3 and
adjusted deltas contributing rolling changes 1,1,1 after a -2 column, no
flush happens at the first two increments and exactly one flush — a new
column — happens at the third. -/
theorem pnf_flush_only_at_reversal
    (reversal : ℤ) (adjusted : List ℤ) (tv td : List ℚ) (s : PnfS3) (i : ℕ)
    (h : |s.rolling_change + adjusted.getD i 0| < reversal) :
    ((pnfStep3 reversal adjusted tv td s i).boxes = s.boxes
      ∧ (pnfStep3 reversal adjusted tv td s i).new_volumes = s.new_volumes
      ∧ (pnfStep3 reversal adjusted tv td s i).new_dates = s.new_dates
      ∧ (pnfStep3 reversal adjusted tv td s i).rolling_change
          = s.rolling_change + adjusted.getD i 0)
    ∧ (([1].foldl (pnfStep3 3 [-2, 1, 1, 1] [0, 0, 0, 0] [0, 0, 0, 0])
          (pnfPass3Init [-2, 1, 1, 1] [0, 0, 0, 0] [0, 0, 0, 0])).boxes = [-2]
      ∧ ([1, 2].foldl (pnfStep3 3 [-2, 1, 1, 1] [0, 0, 0, 0] [0, 0, 0, 0])
          (pnfPass3Init [-2, 1, 1, 1] [0, 0, 0, 0] [0, 0, 0, 0])).boxes = [-2]
      ∧ (pnfPass3 3 [-2, 1, 1, 1] [0, 0, 0, 0] [0, 0, 0, 0]).boxes = [-2, 3]) := by
  constructor
  · simp only [pnfStep3]
    rw [if_neg (by omega)]
    exact ⟨rfl, rfl, rfl, rfl⟩
  · exact ⟨by with_unfolding_all decide, by with_unfolding_all decide,
      by with_unfolding_all decide⟩

/-- Witness for C4: one sub-threshold step on a concrete state. -/
theorem pnf_flush_only_at_reversal_witness :
    (pnfStep3 3 [-2, 1, 1, 1] [0, 0, 0, 0] [0, 0, 0, 0]
        (pnfPass3Init [-2, 1, 1, 1] [0, 0, 0, 0] [0, 0, 0, 0]) 1).boxes
      = (pnfPass3Init [-2, 1, 1, 1] [0, 0, 0, 0] [0, 0, 0, 0]).boxes :=
  (pnf_flush_only_at_reversal 3 [-2, 1, 1, 1] [0, 0, 0, 0] [0, 0, 0, 0]
      (pnfPass3Init [-2, 1, 1, 1] [0, 0, 0, 0] [0, 0, 0, 0]) 1
      (by with_unfolding_all decide)).1.1

/-- The ghost-instrumented merge loop projects onto the real one. -/
theorem pnfGhost_fst (reversal : ℤ) (adjusted : List ℤ) (tv td : List ℚ) :
    ∀ (idxs : List ℕ) (s : PnfS3) (g : List ℤ),
      (idxs.foldl (pnfStep3Ghost reversal adjusted tv td) (s, g)).1
        = idxs.foldl (pnfStep3 reversal adjusted tv td) s := by
  intro idxs
  induction idxs with
  | nil => intro s g; rfl
  | cons i rest ih =>
    intro s g
    simp only [List.foldl_cons]
    have hfst : pnfStep3Ghost reversal adjusted tv td (s, g) i
        = (pnfStep3 reversal adjusted tv td s i,
           (pnfStep3Ghost reversal adjusted tv td (s, g) i).2) := by
      simp only [pnfStep3Ghost]
      split <;> rfl
    rw [hfst, ih]

theorem pnfStep3Ghost_flush (reversal : ℤ) (adjusted : List ℤ) (tv td : List ℚ)
    (s : PnfS3) (g : List ℤ) (i : ℕ)
    (h : |s.rolling_change + adjusted.getD i 0| ≥ reversal) :
    pnfStep3Ghost reversal adjusted tv td (s, g) i
      = (pnfStep3 reversal adjusted tv td s i, []) := by
  unfold pnfStep3Ghost
  rw [if_pos h]

theorem pnfStep3Ghost_noflush (reversal : ℤ) (adjusted : List ℤ) (tv td : List ℚ)
    (s : PnfS3) (g : List ℤ) (i : ℕ)
    (h : ¬(|s.rolling_change + adjusted.getD i 0| ≥ reversal)) :
    pnfStep3Ghost reversal adjusted tv td (s, g) i
      = (pnfStep3 reversal adjusted tv td s i,
         if (s.rolling_change + adjusted.getD i 0) * s.boxes.getLastD 0 > 0
         then g ++ [s.rolling_change + adjusted.getD i 0] else g) := by
  unfold pnfStep3Ghost
  rw [if_neg h]

theorem pnfStep3_flush_biggest (reversal : ℤ) (adjusted : List ℤ) (tv td : List ℚ)
    (s : PnfS3) (i : ℕ) (h : |s.rolling_change + adjusted.getD i 0| ≥ reversal) :
    (pnfStep3 reversal adjusted tv td s i).biggest_difference = 0 := by
  simp only [pnfStep3]
  rw [if_pos h]
  split <;> rfl

theorem pnfStep3_noflush_biggest (reversal : ℤ) (adjusted : List ℤ) (tv td : List ℚ)
    (s : PnfS3) (i : ℕ) (h : ¬(|s.rolling_change + adjusted.getD i 0| ≥ reversal)) :
    (pnfStep3 reversal adjusted tv td s i).biggest_difference
      = if (s.rolling_change + adjusted.getD i 0) * s.boxes.getLastD 0 > 0
            ∧ |s.rolling_change + adjusted.getD i 0| > |s.biggest_difference|
        then s.rolling_change + adjusted.getD i 0 else s.biggest_difference := by
  simp only [pnfStep3]
  rw [if_neg h]

/-- Ghost invariant: `biggest_difference` is an entry of the recorded list of
matching-signed rolling values since the last flush (or the list is empty and
it is 0), and it is maximal among them in absolute value. -/
theorem pnfGhost_biggest (reversal : ℤ) (adjusted : List ℤ) (tv td : List ℚ) :
    ∀ (idxs : List ℕ) (s : PnfS3) (g : List ℤ),
      (s.biggest_difference = 0 ∧ g = [] ∨ s.biggest_difference ∈ g) →
      (∀ x ∈ g, |x| ≤ |s.biggest_difference|) →
      ((((idxs.foldl (pnfStep3Ghost reversal adjusted tv td) (s, g)).1).biggest_difference = 0
          ∧ (idxs.foldl (pnfStep3Ghost reversal adjusted tv td) (s, g)).2 = []
        ∨ ((idxs.foldl (pnfStep3Ghost reversal adjusted tv td) (s, g)).1).biggest_difference
            ∈ (idxs.foldl (pnfStep3Ghost reversal adjusted tv td) (s, g)).2)
      ∧ ∀ x ∈ (idxs.foldl (pnfStep3Ghost reversal adjusted tv td) (s, g)).2,
          |x| ≤ |((idxs.foldl (pnfStep3Ghost reversal adjusted tv td) (s, g)).1).biggest_difference|) := by
  intro idxs
  induction idxs with
  | nil => intro s g h1 h2; exact ⟨h1, h2⟩
  | cons i rest ih =>
    intro s g h1 h2
    simp only [List.foldl_cons]
    by_cases hflush : |s.rolling_change + adjusted.getD i 0| ≥ reversal
    · rw [pnfStep3Ghost_flush reversal adjusted tv td s g i hflush]
      apply ih
      · exact Or.inl ⟨pnfStep3_flush_biggest reversal adjusted tv td s i hflush, rfl⟩
      · intro x hx
        simp at hx
    · rw [pnfStep3Ghost_noflush reversal adjusted tv td s g i hflush]
      have hb := pnfStep3_noflush_biggest reversal adjusted tv td s i hflush
      by_cases hmatch : (s.rolling_change + adjusted.getD i 0) * s.boxes.getLastD 0 > 0
      · rw [if_pos hmatch]
        by_cases hbig : |s.rolling_change + adjusted.getD i 0| > |s.biggest_difference|
        · rw [if_pos ⟨hmatch, hbig⟩] at hb
          apply ih
          · refine Or.inr ?_
            rw [hb]
            exact List.mem_append_right _ (List.mem_singleton_self _)
          · intro x hx
            rw [hb]
            rcases List.mem_append.mp hx with hx | hx
            · exact le_trans (h2 x hx) (le_of_lt hbig)
            · rw [List.eq_of_mem_singleton hx]
        · rw [if_neg (fun hc => hbig hc.2)] at hb
          have hro : s.rolling_change + adjusted.getD i 0 ≠ 0 := by
            intro hzero
            rw [hzero] at hmatch
            simp at hmatch
          have hmem : s.biggest_difference ∈ g := by
            rcases h1 with ⟨hb0, -⟩ | hmem
            · exfalso
              apply hro
              have hle := le_of_not_lt hbig
              rw [hb0] at hle
              simpa using hle
            · exact hmem
          apply ih
          · refine Or.inr ?_
            rw [hb]
            exact List.mem_append_left _ hmem
          · intro x hx
            rw [hb]
            rcases List.mem_append.mp hx with hx | hx
            · exact h2 x hx
            · rw [List.eq_of_mem_singleton hx]
              exact le_of_not_lt hbig
      · rw [if_neg hmatch]
        rw [if_neg (fun hc => hmatch hc.1)] at hb
        apply ih
        · rcases h1 with ⟨hb0, hg⟩ | hmem
          · exact Or.inl ⟨by rw [hb, hb0], hg⟩
          · refine Or.inr ?_
            rw [hb]
            exact hmem
        · intro x hx
          rw [hb]
          exact h2 x hx

/-- C5: the merge loop ends by adding `biggest_difference` to the final
column's count and the leftover `volume_cache` to its volume;
`biggest_difference` is the magnitude-largest rolling value recorded since
the last flush whose sign matched the running last column (0 when none was
recorded); and the leftover `rolling_change` itself — in particular an
opposite-signed dangling remainder — is discarded, contributing no count. -/
theorem pnf_final_biggest_difference (reversal : ℤ) (adjusted : List ℤ) (tv td : List ℚ) :
    (pnfPass3Ghost reversal adjusted tv td).1 = pnfPass3 reversal adjusted tv td
    ∧ (pnfFinal (pnfPass3 reversal adjusted tv td)).boxes
        = setLast (pnfPass3 reversal adjusted tv td).boxes
            ((pnfPass3 reversal adjusted tv td).boxes.getLastD 0
              + (pnfPass3 reversal adjusted tv td).biggest_difference)
    ∧ (pnfFinal (pnfPass3 reversal adjusted tv td)).new_volumes
        = setLast (pnfPass3 reversal adjusted tv td).new_volumes
            ((pnfPass3 reversal adjusted tv td).new_volumes.getLastD 0
              + (pnfPass3 reversal adjusted tv td).volume_cache)
    ∧ ((pnfPass3Ghost reversal adjusted tv td).1.biggest_difference = 0
          ∧ (pnfPass3Ghost reversal adjusted tv td).2 = []
        ∨ (pnfPass3Ghost reversal adjusted tv td).1.biggest_difference
            ∈ (pnfPass3Ghost reversal adjusted tv td).2)
    ∧ (∀ x ∈ (pnfPass3Ghost reversal adjusted tv td).2,
        |x| ≤ |(pnfPass3Ghost reversal adjusted tv td).1.biggest_difference|)
    ∧ (∀ (t : PnfS3) (r : ℤ),
        (pnfFinal { t with rolling_change := r }).boxes = (pnfFinal t).boxes) := by
  have hinv := pnfGhost_biggest reversal adjusted tv td
    ((List.range adjusted.length).drop 1)
    (pnfPass3Init adjusted tv td) [] (Or.inl ⟨rfl, rfl⟩) (by intro x hx; simp at hx)
  exact ⟨pnfGhost_fst reversal adjusted tv td _ _ _, rfl, rfl, hinv.1, hinv.2,
    fun t r => rfl⟩

theorem sum_nonpos_int : ∀ (l : List ℤ), (∀ x ∈ l, x ≤ 0) → l.sum ≤ 0 := by
  intro l
  induction l with
  | nil => intro _; simp
  | cons x t ih =>
    intro h
    rw [List.sum_cons]
    have hx := h x (List.mem_cons_self x t)
    have ht := ih (fun y hy => h y (List.mem_cons_of_mem x hy))
    omega

/-- A nonzero head plus the sum of a same-signed run is nonzero. -/
theorem head_add_run_sum_ne_zero (a : ℤ) (g : List ℤ) (ha : a ≠ 0)
    (hg : ∀ x ∈ g, x.sign = a.sign) : a + g.sum ≠ 0 := by
  rcases lt_trichotomy a 0 with h | h | h
  · have hneg : ∀ x ∈ g, x ≤ 0 := by
      intro x hx
      have hxs := hg x hx
      rw [Int.sign_eq_neg_one_iff_neg.mpr h] at hxs
      exact le_of_lt (Int.sign_eq_neg_one_iff_neg.mp hxs)
    have := sum_nonpos_int g hneg
    omega
  · exact absurd h ha
  · have hpos : ∀ x ∈ g, (0 : ℤ) ≤ x := by
      intro x hx
      have hxs := hg x hx
      rw [Int.sign_eq_one_iff_pos.mpr h] at hxs
      exact le_of_lt (Int.sign_eq_one_iff_pos.mp hxs)
    have := List.sum_nonneg hpos
    omega

theorem combineAdjacentGo_ne_nil (a : ℤ) (rest : List ℤ) (c : ℕ) :
    (combineAdjacentGo (a :: rest) c).1 ≠ [] := by
  rw [combineAdjacentGo]
  simp

/-- Every run total produced by `combine_adjacent` on a list of nonzero
entries is nonzero. -/
theorem combineAdjacentGo_all_nonzero :
    ∀ (n : ℕ) (l : List ℤ), l.length ≤ n → ∀ (c : ℕ), (∀ x ∈ l, x ≠ 0) →
      ∀ y ∈ (combineAdjacentGo l c).1, y ≠ 0 := by
  intro n
  induction n with
  | zero =>
    intro l hl c _ y hy
    have hnil : l = [] := List.length_eq_zero.mp (by omega)
    subst hnil
    rw [combineAdjacentGo] at hy
    simp at hy
  | succ m ih =>
    intro l hl c hnz y hy
    cases l with
    | nil =>
      rw [combineAdjacentGo] at hy
      simp at hy
    | cons a rest =>
      rw [combineAdjacentGo] at hy
      simp only [List.mem_cons] at hy
      rcases hy with rfl | hy
      · apply head_add_run_sum_ne_zero a _ (hnz a (List.mem_cons_self a rest))
        intro x hx
        have := List.mem_takeWhile_imp hx
        simpa using this
      · refine ih (rest.dropWhile (fun x => x.sign == a.sign)) ?_ _ ?_ y hy
        · have hsub := List.Sublist.length_le
            (List.dropWhile_sublist (fun x : ℤ => x.sign == a.sign) (l := rest))
          simp only [List.length_cons] at hl
          omega
        · intro x hx
          exact hnz x (List.mem_cons_of_mem a ((List.dropWhile_sublist _).subset hx))

/-- PnF delta extraction appends only nonzero box counts. -/
theorem pnfFold1_boxes_nonzero (bs : ℚ) (closes volumes dates : List ℚ) :
    ∀ (idxs : List ℕ) (s : PnfS1), (∀ x ∈ s.boxes, x ≠ 0) →
      ∀ x ∈ (idxs.foldl (pnfStep1 bs closes volumes dates) s).boxes, x ≠ 0 := by
  intro idxs
  induction idxs with
  | nil => intro s h; exact h
  | cons i rest ih =>
    intro s h
    simp only [List.foldl_cons]
    apply ih
    simp only [pnfStep1]
    split
    · exact h
    · rename_i hbd
      intro x hx
      rcases List.mem_append.mp hx with hx | hx
      · exact h x hx
      · rw [List.eq_of_mem_singleton hx]
        exact hbd

theorem add_ne_zero_of_mul_pos {x y : ℤ} (h : 0 < x * y) : x + y ≠ 0 := by
  rcases mul_pos_iff.mp h with ⟨hx, hy⟩ | ⟨hx, hy⟩ <;> omega

theorem getLastD_irrel : ∀ (l : List ℤ), l ≠ [] → ∀ (d d2 : ℤ), l.getLastD d = l.getLastD d2 := by
  intro l
  induction l with
  | nil => intro h; exact absurd rfl h
  | cons x t _ =>
    intro _ d d2
    cases t with
    | nil => rfl
    | cons y u => simp only [List.getLastD_cons]

theorem getLastD_mem_int : ∀ (l : List ℤ), l ≠ [] → l.getLastD 0 ∈ l := by
  intro l
  induction l with
  | nil => intro h; exact absurd rfl h
  | cons x t ih =>
    intro _
    cases t with
    | nil => simp
    | cons y u =>
      rw [List.getLastD_cons, getLastD_irrel (y :: u) (by simp) x 0]
      exact List.mem_cons_of_mem x (ih (by simp))

theorem setLast_cons_cons {α : Type} (x y : α) (t : List α) (v : α) :
    setLast (x :: y :: t) v = x :: setLast (y :: t) v := by
  show (x :: y :: t).set ((x :: y :: t).length - 1) v
      = x :: (y :: t).set ((y :: t).length - 1) v
  rw [show (x :: y :: t).length - 1 = ((y :: t).length - 1) + 1 from by simp,
    List.set_cons_succ]

theorem getLastD_setLast : ∀ (l : List ℤ), l ≠ [] → ∀ (v d : ℤ),
    (setLast l v).getLastD d = v := by
  intro l
  induction l with
  | nil => intro h; exact absurd rfl h
  | cons x t ih =>
    intro _ v d
    cases t with
    | nil => rfl
    | cons y u =>
      rw [setLast_cons_cons, List.getLastD_cons]
      exact ih (by simp) v x

theorem getLastD_append_singleton (l : List ℤ) (a d : ℤ) : (l ++ [a]).getLastD d = a := by
  induction l generalizing d with
  | nil => rfl
  | cons x t ih =>
    rw [List.cons_append, List.getLastD_cons]
    exact ih x

/-- Replacing the last element of an alternating list by a value compatible
with every admissible predecessor keeps it alternating. -/
theorem chain_mulneg_setLast :
    ∀ (l : List ℤ), l ≠ [] → ∀ (v : ℤ),
      l.Chain' (fun a b => a * b < 0) →
      (∀ y : ℤ, y * l.getLastD 0 < 0 → y * v < 0) →
      (setLast l v).Chain' (fun a b => a * b < 0) := by
  intro l
  induction l with
  | nil => intro h; exact absurd rfl h
  | cons x t ih =>
    intro _ v hchain hsame
    cases t with
    | nil => exact List.chain'_singleton v
    | cons y u =>
      rw [setLast_cons_cons]
      rw [List.chain'_cons'] at hchain ⊢
      constructor
      · intro h hh
        cases u with
        | nil =>
          simp only [setLast, List.length_cons, List.length_nil] at hh
          simp only [List.set] at hh
          simp at hh
          subst hh
          apply hsame x
          have hxy := hchain.1 y (by simp)
          simpa [List.getLastD_cons] using hxy
        | cons z w =>
          rw [setLast_cons_cons] at hh
          simp only [List.head?_cons, Option.mem_def, Option.some.injEq] at hh
          subst hh
          exact hchain.1 y (by simp)
      · apply ih (by simp) v hchain.2
        intro z hz
        apply hsame z
        rw [List.getLastD_cons, getLastD_irrel (y :: u) (by simp) x 0]
        exact hz

/-- Appending an opposite-signed value to an alternating list keeps it
alternating. -/
theorem chain_mulneg_append (l : List ℤ) (_hne : l ≠ []) (v : ℤ)
    (hchain : l.Chain' (fun a b => a * b < 0)) (hv : l.getLastD 0 * v < 0) :
    (l ++ [v]).Chain' (fun a b => a * b < 0) := by
  rw [List.chain'_append]
  refine ⟨hchain, List.chain'_singleton v, ?_⟩
  intro x hx y hy
  simp only [List.head?_cons, Option.mem_def, Option.some.injEq] at hy
  subst hy
  have hx2 : l.getLastD 0 = x := by
    rw [List.getLastD_eq_getLast?, Option.mem_def.mp hx]
    rfl
  rw [hx2] at hv
  exact hv

/-- The PnF discount pass keeps the adjusted run list nonempty and free of
zero entries. -/
theorem pnfFold2_nonzero (boxes : List ℤ) (nv nd : List ℚ) :
    ∀ (idxs : List ℕ) (s : PnfS2),
      s.adjusted_boxes ≠ [] → (∀ x ∈ s.adjusted_boxes, x ≠ 0) →
      (idxs.foldl (pnfStep2 boxes nv nd) s).adjusted_boxes ≠ []
      ∧ ∀ x ∈ (idxs.foldl (pnfStep2 boxes nv nd) s).adjusted_boxes, x ≠ 0 := by
  intro idxs
  induction idxs with
  | nil => intro s h1 h2; exact ⟨h1, h2⟩
  | cons i rest ih =>
    intro s h1 h2
    simp only [List.foldl_cons]
    have hstep : (pnfStep2 boxes nv nd s i).adjusted_boxes ≠ []
        ∧ ∀ x ∈ (pnfStep2 boxes nv nd s i).adjusted_boxes, x ≠ 0 := by
      simp only [pnfStep2]
      split
      · rename_i hcond
        refine ⟨by simp, ?_⟩
        intro x hx
        rcases List.mem_append.mp hx with hx | hx
        · exact h2 x hx
        · rw [List.eq_of_mem_singleton hx]
          exact hcond.1
      · split
        · rename_i hcond
          refine ⟨setLast_ne_nil _ h1 _, ?_⟩
          intro x hx
          simp only [setLast] at hx
          rcases List.mem_or_eq_of_mem_set hx with hx | rfl
          · exact h2 x hx
          · exact add_ne_zero_of_mul_pos hcond.2
        · exact ⟨h1, h2⟩
    exact ih _ hstep.1 hstep.2

theorem pnfStep3_merge_eq (reversal : ℤ) (adjusted : List ℤ) (tv td : List ℚ)
    (s : PnfS3) (i : ℕ)
    (hf : |s.rolling_change + adjusted.getD i 0| ≥ reversal)
    (hm : (s.rolling_change + adjusted.getD i 0) * s.boxes.getLastD 0 > 0) :
    pnfStep3 reversal adjusted tv td s i
      = { boxes := setLast s.boxes
            (s.boxes.getLastD 0 + (s.rolling_change + adjusted.getD i 0)),
          new_volumes := setLast s.new_volumes
            (s.new_volumes.getLastD 0 + (s.volume_cache + pyGet tv (i : ℤ))),
          new_dates := s.new_dates, rolling_change := 0, volume_cache := 0,
          biggest_difference := 0 } := by
  simp only [pnfStep3]
  rw [if_pos hf, if_pos hm]

theorem pnfStep3_append_eq (reversal : ℤ) (adjusted : List ℤ) (tv td : List ℚ)
    (s : PnfS3) (i : ℕ)
    (hf : |s.rolling_change + adjusted.getD i 0| ≥ reversal)
    (hm : ¬((s.rolling_change + adjusted.getD i 0) * s.boxes.getLastD 0 > 0)) :
    pnfStep3 reversal adjusted tv td s i
      = { boxes := s.boxes ++ [s.rolling_change + adjusted.getD i 0],
          new_volumes := s.new_volumes ++ [s.volume_cache + pyGet tv (i : ℤ)],
          new_dates := s.new_dates ++ [pyGet td (i : ℤ)], rolling_change := 0,
          volume_cache := 0, biggest_difference := 0 } := by
  simp only [pnfStep3]
  rw [if_pos hf, if_neg hm]

theorem pnfStep3_noflush_eq (reversal : ℤ) (adjusted : List ℤ) (tv td : List ℚ)
    (s : PnfS3) (i : ℕ)
    (hf : ¬(|s.rolling_change + adjusted.getD i 0| ≥ reversal)) :
    pnfStep3 reversal adjusted tv td s i
      = { s with
          rolling_change := s.rolling_change + adjusted.getD i 0
          volume_cache := s.volume_cache + pyGet tv (i : ℤ)
          biggest_difference :=
            if (s.rolling_change + adjusted.getD i 0) * s.boxes.getLastD 0 > 0
                ∧ |s.rolling_change + adjusted.getD i 0| > |s.biggest_difference|
            then s.rolling_change + adjusted.getD i 0 else s.biggest_difference } := by
  simp only [pnfStep3]
  rw [if_neg hf]

theorem mul_neg_of_same_sign_add {y last r : ℤ} (h : 0 < r * last) (hy : y * last < 0) :
    y * (last + r) < 0 := by
  rcases mul_pos_iff.mp h with ⟨hr, hl⟩ | ⟨hr, hl⟩
  · have hy' : y < 0 := by
      by_contra hge
      push_neg at hge
      exact absurd (mul_nonneg hge (le_of_lt hl)) (not_le.mpr hy)
    have h1 : y * r < 0 := mul_neg_of_neg_of_pos hy' hr
    have h2 : y * (last + r) = y * last + y * r := by ring
    linarith
  · have hy' : 0 < y := by
      by_contra hge
      push_neg at hge
      exact absurd (mul_nonneg_of_nonpos_of_nonpos hge (le_of_lt hl)) (not_le.mpr hy)
    have h1 : y * r < 0 := mul_neg_of_pos_of_neg hy' hr
    have h2 : y * (last + r) = y * last + y * r := by ring
    linarith

theorem add_ne_zero_of_mul_nonneg {last big : ℤ} (hl : last ≠ 0)
    (h : 0 ≤ big * last) : last + big ≠ 0 := by
  rcases eq_or_ne big 0 with rfl | hb
  · simpa using hl
  · have hpos : 0 < big * last := lt_of_le_of_ne h (Ne.symm (mul_ne_zero hb hl))
    intro hc
    exact add_ne_zero_of_mul_pos hpos (by omega)

/-- The merge-loop invariant for C9: columns stay nonempty, nonzero and
strictly alternating in sign, and `biggest_difference` stays weakly
same-signed with the last column. -/
theorem pnfFold3_alternating (reversal : ℤ) (adjusted : List ℤ) (tv td : List ℚ)
    (hrev : 1 ≤ reversal) :
    ∀ (idxs : List ℕ) (s : PnfS3),
      s.boxes ≠ [] → (∀ b ∈ s.boxes, b ≠ 0) →
      s.boxes.Chain' (fun a b => a * b < 0) →
      0 ≤ s.biggest_difference * s.boxes.getLastD 0 →
      ((idxs.foldl (pnfStep3 reversal adjusted tv td) s).boxes ≠ []
      ∧ (∀ b ∈ (idxs.foldl (pnfStep3 reversal adjusted tv td) s).boxes, b ≠ 0)
      ∧ (idxs.foldl (pnfStep3 reversal adjusted tv td) s).boxes.Chain'
          (fun a b => a * b < 0)
      ∧ 0 ≤ (idxs.foldl (pnfStep3 reversal adjusted tv td) s).biggest_difference
          * (idxs.foldl (pnfStep3 reversal adjusted tv td) s).boxes.getLastD 0) := by
  intro idxs
  induction idxs with
  | nil => intro s h1 h2 h3 h4; exact ⟨h1, h2, h3, h4⟩
  | cons i rest ih =>
    intro s h1 h2 h3 h4
    simp only [List.foldl_cons]
    have hlastne : s.boxes.getLastD 0 ≠ 0 := h2 _ (getLastD_mem_int s.boxes h1)
    by_cases hflush : |s.rolling_change + adjusted.getD i 0| ≥ reversal
    · have hrne : s.rolling_change + adjusted.getD i 0 ≠ 0 := by
        intro h0
        rw [h0] at hflush
        simp at hflush
        omega
      by_cases hmatch : (s.rolling_change + adjusted.getD i 0) * s.boxes.getLastD 0 > 0
      · rw [pnfStep3_merge_eq reversal adjusted tv td s i hflush hmatch]
        apply ih
        · exact setLast_ne_nil _ h1 _
        · intro b hb
          simp only [setLast] at hb
          rcases List.mem_or_eq_of_mem_set hb with hb | rfl
          · exact h2 b hb
          · exact add_ne_zero_of_mul_nonneg hlastne (le_of_lt hmatch)
        · apply chain_mulneg_setLast s.boxes h1 _ h3
          intro y hy
          exact mul_neg_of_same_sign_add hmatch hy
        · simp
      · rw [pnfStep3_append_eq reversal adjusted tv td s i hflush hmatch]
        have hopp : s.boxes.getLastD 0 * (s.rolling_change + adjusted.getD i 0) < 0 := by
          have hne : (s.rolling_change + adjusted.getD i 0) * s.boxes.getLastD 0 ≠ 0 :=
            mul_ne_zero hrne hlastne
          have hle := le_of_not_lt hmatch
          rw [mul_comm]
          omega
        apply ih
        · simp
        · intro b hb
          rcases List.mem_append.mp hb with hb | hb
          · exact h2 b hb
          · rw [List.eq_of_mem_singleton hb]
            exact hrne
        · exact chain_mulneg_append s.boxes h1 _ h3 hopp
        · simp
    · rw [pnfStep3_noflush_eq reversal adjusted tv td s i hflush]
      apply ih
      · exact h1
      · exact h2
      · exact h3
      · show 0 ≤ (if _ then _ else _) * s.boxes.getLastD 0
        split
        · rename_i hc
          exact le_of_lt hc.1
        · exact h4

/-- C9: every successful PnF aggregation returns column counts that are all
nonzero, with consecutive counts of strictly opposite signs. -/
theorem pnf_columns_alternate (box_size : ℚ) (reversal : ℤ)
    (dates highs lows closes volumes : List ℚ) (out : PnfOut)
    (h : pnfAggregate box_size reversal dates highs lows closes volumes = some out) :
    (∀ b ∈ out.counts, b ≠ 0) ∧ out.counts.Chain' (fun a b => a * b < 0) := by
  unfold pnfAggregate at h
  cases hc : sizeBoundsCheck box_size highs lows closes with
  | none => rw [hc] at h; simp at h
  | some bs =>
    rw [hc] at h
    simp only [Option.some_bind] at h
    by_cases hrev : reversal < 1 ∨ 9 < reversal
    · rw [if_pos hrev] at h
      simp at h
    · rw [if_neg hrev] at h
      by_cases hemp : (pnfPass1 bs closes volumes dates).boxes = []
      · rw [if_pos hemp] at h
        simp at h
      · rw [if_neg hemp] at h
        simp only [Option.some.injEq] at h
        subst h
        have hrev1 : 1 ≤ reversal := by omega
        have hnz1 : ∀ x ∈ (pnfPass1 bs closes volumes dates).boxes, x ≠ 0 := by
          intro x hx
          exact pnfFold1_boxes_nonzero bs closes volumes dates _ _
            (by intro y hy; simp [List.mem_nil_iff] at hy) x hx
        have hnzc : ∀ y ∈ (combineAdjacent (pnfPass1 bs closes volumes dates).boxes).1, y ≠ 0 :=
          combineAdjacentGo_all_nonzero (pnfPass1 bs closes volumes dates).boxes.length
            (pnfPass1 bs closes volumes dates).boxes (le_refl _) 0 hnz1
        have hnec : (combineAdjacent (pnfPass1 bs closes volumes dates).boxes).1 ≠ [] := by
          cases hb : (pnfPass1 bs closes volumes dates).boxes with
          | nil => exact absurd hb hemp
          | cons a rest => exact combineAdjacentGo_ne_nil a rest 0
        have hhead : (combineAdjacent (pnfPass1 bs closes volumes dates).boxes).1.getD 0 0
            ∈ (combineAdjacent (pnfPass1 bs closes volumes dates).boxes).1 := by
          cases hb : (combineAdjacent (pnfPass1 bs closes volumes dates).boxes).1 with
          | nil => exact absurd hb hnec
          | cons a rest => simp
        have h2 := pnfFold2_nonzero
          (combineAdjacent (pnfPass1 bs closes volumes dates).boxes).1
          (coalesceVolumeDates (pnfPass1 bs closes volumes dates).temp_volumes
            (pnfPass1 bs closes volumes dates).temp_dates
            (combineAdjacent (pnfPass1 bs closes volumes dates).boxes).2).1
          (coalesceVolumeDates (pnfPass1 bs closes volumes dates).temp_volumes
            (pnfPass1 bs closes volumes dates).temp_dates
            (combineAdjacent (pnfPass1 bs closes volumes dates).boxes).2).2
          ((List.range
            (combineAdjacent (pnfPass1 bs closes volumes dates).boxes).1.length).drop 1)
          { adjusted_boxes := [(combineAdjacent (pnfPass1 bs closes volumes dates).boxes).1.getD 0 0],
            temp_volumes := [(coalesceVolumeDates (pnfPass1 bs closes volumes dates).temp_volumes
              (pnfPass1 bs closes volumes dates).temp_dates
              (combineAdjacent (pnfPass1 bs closes volumes dates).boxes).2).1.getD 0 0],
            temp_dates := [(coalesceVolumeDates (pnfPass1 bs closes volumes dates).temp_volumes
              (pnfPass1 bs closes volumes dates).temp_dates
              (combineAdjacent (pnfPass1 bs closes volumes dates).boxes).2).2.getD 0 0],
            volume_cache := 0 }
          (by simp)
          (by
            intro x hx
            rw [List.eq_of_mem_singleton hx]
            exact hnzc _ hhead)
        set s2 := pnfPass2 (combineAdjacent (pnfPass1 bs closes volumes dates).boxes).1
          (coalesceVolumeDates (pnfPass1 bs closes volumes dates).temp_volumes
            (pnfPass1 bs closes volumes dates).temp_dates
            (combineAdjacent (pnfPass1 bs closes volumes dates).boxes).2).1
          (coalesceVolumeDates (pnfPass1 bs closes volumes dates).temp_volumes
            (pnfPass1 bs closes volumes dates).temp_dates
            (combineAdjacent (pnfPass1 bs closes volumes dates).boxes).2).2 with hs2def
        have hs2ne : s2.adjusted_boxes ≠ [] := h2.1
        have hs2nz : ∀ x ∈ s2.adjusted_boxes, x ≠ 0 := h2.2
        have hheads2 : s2.adjusted_boxes.getD 0 0 ∈ s2.adjusted_boxes := by
          cases hb : s2.adjusted_boxes with
          | nil => exact absurd hb hs2ne
          | cons a rest => simp
        have h3 := pnfFold3_alternating reversal s2.adjusted_boxes s2.temp_volumes
          s2.temp_dates hrev1
          ((List.range s2.adjusted_boxes.length).drop 1)
          (pnfPass3Init s2.adjusted_boxes s2.temp_volumes s2.temp_dates)
          (by simp [pnfPass3Init])
          (by
            intro b hb
            simp only [pnfPass3Init] at hb
            rw [List.eq_of_mem_singleton hb]
            exact hs2nz _ hheads2)
          (by simp [pnfPass3Init])
          (by simp [pnfPass3Init])
        set s3 := pnfPass3 reversal s2.adjusted_boxes s2.temp_volumes s2.temp_dates with hs3def
        have hlastne3 : s3.boxes.getLastD 0 ≠ 0 := h3.2.1 _ (getLastD_mem_int s3.boxes h3.1)
        constructor
        · intro b hb
          show b ≠ 0
          simp only [pnfFinal, setLast] at hb
          rcases List.mem_or_eq_of_mem_set hb with hb | rfl
          · exact h3.2.1 b hb
          · exact add_ne_zero_of_mul_nonneg hlastne3 h3.2.2.2
        · show (pnfFinal s3).boxes.Chain' (fun a b => a * b < 0)
          simp only [pnfFinal]
          apply chain_mulneg_setLast s3.boxes h3.1 _ h3.2.2.1
          intro y hy
          rcases eq_or_ne s3.biggest_difference 0 with hb0 | hb0
          · rw [hb0]
            simpa using hy
          · have hpos : 0 < s3.biggest_difference * s3.boxes.getLastD 0 :=
              lt_of_le_of_ne h3.2.2.2 (Ne.symm (mul_ne_zero hb0 hlastne3))
            exact mul_neg_of_same_sign_add hpos hy

/-- Witness for C9: a concrete successful PnF aggregation with alternating
nonzero columns [3, -1, 2]. -/
theorem pnf_columns_alternate_witness :
    pnfAggregate 10 1 [0, 1, 2, 3] [100, 130, 110, 140] [100, 130, 110, 140]
        [100, 130, 110, 140] [1, 2, 3, 4]
      = some { counts := [3, -1, 2], dates := [0, 1, 2], volumes := [1, 2, 3], size := 10 }
    ∧ ∀ b ∈ ([3, -1, 2] : List ℤ), b ≠ 0 :=
  ⟨by with_unfolding_all decide,
   (pnf_columns_alternate 10 1 [0, 1, 2, 3] [100, 130, 110, 140] [100, 130, 110, 140]
      [100, 130, 110, 140] [1, 2, 3, 4]
      { counts := [3, -1, 2], dates := [0, 1, 2], volumes := [1, 2, 3], size := 10 }
      (by with_unfolding_all decide)).1⟩

end Mpf
